import Mathlib

/-
  Verification development for the LLMTranslator repository.

  The definitions below are a shallow embedding of the Python sources
  `improved_translator_v2.py`, `improved_translator_v3.py` and
  `toc_structure_parser.py`.  Python strings are modelled as Lean `String`
  (lists of unicode characters), Python dicts keyed by page number as
  functions `Nat → Option String`, the external translation provider as a
  function from attempt index to `Option String` (`none` models an exception
  or a falsy result object), and `time.sleep` calls as an explicit list of
  recorded delays.  The subset of Python `re` used by the sources is embedded
  as a small backtracking matcher (`mrun`) over a regex syntax tree faithful
  to the literal patterns appearing in the code, with Python search
  semantics: leftmost match wins, ordered alternation, greedy and lazy
  repetition, lookahead, and the `$` end-of-string rule.
-/

set_option maxRecDepth 8000

namespace PdfTr

/-- Python whitespace characters recognised by `str.split`, `str.strip` and
the regex class `\s` (ASCII set used by the sources). -/
def pyIsSpace (c : Char) : Bool :=
  c = ' ' || c = '\t' || c = '\n' || c = '\r' || c = '\x0b' || c = '\x0c'

/-- Regex class `\d`. -/
def pyDigit (c : Char) : Bool :=
  '0' ≤ c && c ≤ '9'

/-- Python `str.strip()` on a character list: drop whitespace at both ends. -/
def pyStrip (l : List Char) : List Char :=
  ((l.dropWhile pyIsSpace).reverse.dropWhile pyIsSpace).reverse

/-- Python `str.strip()` on a `String`. -/
def pyStripStr (s : String) : String :=
  String.mk (pyStrip s.data)

/-- Captured groups of a regex match: group index to captured characters. -/
def Caps : Type := Nat → Option (List Char)

/-- No group captured yet. -/
def capsEmpty : Caps := fun _ => none

/-- Record the capture of group `i`. -/
def capsSet (caps : Caps) (i : Nat) (v : List Char) : Caps :=
  fun j => if j = i then some v else caps j

/-- Syntax trees for the subset of Python `re` used by the repository:
single-character classes, concatenation, ordered alternation, repetition of a
character class with a lower bound (`greedy = false` gives lazy repetition,
as in `(.+?)`), capturing groups, lookahead `(?=...)`, the `^` anchor and the
`$` anchor. -/
inductive RE where
  | cls (p : Char → Bool)
  | eps
  | seq (a b : RE)
  | alt (a b : RE)
  | crep (p : Char → Bool) (lo : Nat) (greedy : Bool)
  | grp (i : Nat) (a : RE)
  | look (a : RE)
  | bos
  | eos

/-- First successful result of `f` over a list, in order. -/
def firstSome {α β : Type} (f : α → Option β) : List α → Option β
  | [] => none
  | x :: xs =>
    match f x with
    | some r => some r
    | none => firstSome f xs

/-- Backtracking matcher.  `mrun re s pos caps k` tries to match `re` at the
front of the suffix `s` (which starts at absolute position `pos` of the
subject string) and passes the rest of the input, the new position and the
updated captures to the continuation `k`; alternatives are explored in
Python order (ordered alternation, longest-first for greedy repetition,
shortest-first for lazy repetition). -/
def mrun : RE → List Char → Nat → Caps →
    (List Char → Nat → Caps → Option (Nat × Caps)) → Option (Nat × Caps)
  | .cls p, s, pos, caps, k =>
    match s with
    | [] => none
    | c :: rest => if p c then k rest (pos + 1) caps else none
  | .eps, s, pos, caps, k => k s pos caps
  | .seq a b, s, pos, caps, k =>
    mrun a s pos caps (fun s2 pos2 caps2 => mrun b s2 pos2 caps2 k)
  | .alt a b, s, pos, caps, k =>
    match mrun a s pos caps k with
    | some r => some r
    | none => mrun b s pos caps k
  | .crep p lo greedy, s, pos, caps, k =>
    let r := (s.takeWhile p).length
    let cands := List.range' lo (r + 1 - lo)
    firstSome (fun n => k (s.drop n) (pos + n) caps)
      (if greedy then cands.reverse else cands)
  | .grp i a, s, pos, caps, k =>
    mrun a s pos caps
      (fun s2 pos2 caps2 => k s2 pos2 (capsSet caps2 i (s.take (pos2 - pos))))
  | .look a, s, pos, caps, k =>
    match mrun a s pos caps (fun _ pos2 caps2 => some (pos2, caps2)) with
    | some (_, caps2) => k s pos caps2
    | none => none
  | .bos, s, pos, caps, k => if pos = 0 then k s pos caps else none
  | .eos, s, pos, caps, k =>
    match s with
    | [] => k s pos caps
    | [c] => if c = '\n' then k s pos caps else none
    | _ => none

/-- Try to match `re` exactly at position `pos`; returns end position and
captures of the first match in backtracking order. -/
def matchHere (re : RE) (s : List Char) (pos : Nat) : Option (Nat × Caps) :=
  mrun re s pos capsEmpty (fun _ pos2 caps => some (pos2, caps))

/-- Python `re.search` scanning: try each start position from left to right.
`s` is the suffix of the subject starting at absolute position `pos`.
Returns `(start, end, captures)` of the leftmost match. -/
def searchFrom (re : RE) : List Char → Nat → Option (Nat × Nat × Caps)
  | s, pos =>
    match matchHere re s pos with
    | some (e, caps) => some (pos, e, caps)
    | none =>
      match s with
      | [] => none
      | _ :: rest => searchFrom re rest (pos + 1)

/-- Python `re.search` over a whole character list. -/
def reSearch (re : RE) (s : List Char) : Option (Nat × Nat × Caps) :=
  searchFrom re s 0

/-- Worker for `reFindIter`; the fuel argument only bounds the number of
matches, which is at most the input length for the non-empty patterns used
by the sources. -/
def finditAux (re : RE) : Nat → List Char → Nat → List (Nat × Nat)
  | 0, _, _ => []
  | fuel + 1, s, pos =>
    match searchFrom re s pos with
    | none => []
    | some (st, en, _) =>
      (st, en) :: finditAux re fuel (s.drop (en - pos)) en

/-- Python `re.finditer`: spans of successive non-overlapping leftmost
matches. -/
def reFindIter (re : RE) (s : List Char) : List (Nat × Nat) :=
  finditAux re (s.length + 1) s 0

/-- Number of matches, Python `len(re.findall(...))`. -/
def reCount (re : RE) (s : List Char) : Nat :=
  (reFindIter re s).length

/-- Single literal character. -/
def reLit (c : Char) : RE := .cls (fun d => d = c)

/-- Greedy `X?`. -/
def reOpt (a : RE) : RE := .alt a .eps

/-- Greedy bounded repetition `X{0,n}`. -/
def reRepMax : Nat → RE → RE
  | 0, _ => .eps
  | n + 1, a => .alt (.seq a (reRepMax n a)) .eps

/-- Regex `\s+`. -/
def wsPlus : RE := .crep pyIsSpace 1 true

/-- Regex `\s*`. -/
def wsStar : RE := .crep pyIsSpace 0 true

/-- Regex `\d+`. -/
def digitsPlus : RE := .crep pyDigit 1 true

/-- Regex `\.{lo,}`. -/
def dotRun (lo : Nat) : RE := .crep (fun c => c = '.') lo true

/-- Regex `.` (any character but a newline). -/
def notNl (c : Char) : Bool := !(c = '\n')

/-- Lazy `(.+?)`. -/
def anyLazyPlus : RE := .crep notNl 1 false

/-- Regex `(?:\.\d+)`, one dot-separated number segment. -/
def dotSeg : RE := .seq (reLit '.') digitsPlus

/-- Regex `\d+(?:\.\d+){0,4}`. -/
def numberRE0 : RE := .seq digitsPlus (reRepMax 4 dotSeg)

/-- Regex `\d+(?:\.\d+){1,4}`. -/
def numberRE1 : RE := .seq digitsPlus (.seq dotSeg (reRepMax 3 dotSeg))

/-- Split a character list at every occurrence of `sep`, keeping empty
pieces: Python `str.split(sep)`. -/
def splitChar (sep : Char) (l : List Char) : List (List Char) :=
  l.foldr
    (fun c acc =>
      if c = sep then [] :: acc
      else
        match acc with
        | a :: rest => (c :: a) :: rest
        | [] => [[c]])
    [[]]

/-- Parse a non-empty digit string as a number, Python `int` on a `\d+`
match. -/
def digitsToNat (l : List Char) : Nat :=
  l.foldl (fun acc c => acc * 10 + (c.toNat - '0'.toNat)) 0

/-- Group `i` of a match, defaulting to the empty string. -/
def capGet (caps : Caps) (i : Nat) : List Char :=
  (caps i).getD []

/-
  toc_structure_parser.py
-/

/-- `TOCItem` dataclass of `toc_structure_parser.py`. -/
structure TOCItem where
  number : String
  title : String
  level : Nat
  page : Option Nat
  parent : Option String
deriving DecidableEq, Repr

/-- First entry of `TOCStructureParser.section_patterns`:
`(\d+(?:\.\d+){1,4})\s+(.+?)(?:\s+\.{2,}|\s+(?=\d+$)|$)`. -/
def sectionPat1 : RE :=
  .seq (.grp 1 numberRE1)
    (.seq wsPlus
      (.seq (.grp 2 anyLazyPlus)
        (.alt (.seq wsPlus (dotRun 2))
          (.alt (.seq wsPlus (.look (.seq digitsPlus .eos))) .eos))))

/-- Second entry of `section_patterns`:
`(\d+(?:\.\d+){1,4})\s+(.+?)\s+\.{2,}\s*(\d+)`. -/
def sectionPat2 : RE :=
  .seq (.grp 1 numberRE1)
    (.seq wsPlus
      (.seq (.grp 2 anyLazyPlus)
        (.seq wsPlus (.seq (dotRun 2) (.seq wsStar (.grp 3 digitsPlus))))))

/-- Third entry of `section_patterns`:
`(\d+(?:\.\d+){1,4})\s+([^\d]+?)(?:\s+\d+)?$`. -/
def sectionPat3 : RE :=
  .seq (.grp 1 numberRE1)
    (.seq wsPlus
      (.seq (.grp 2 (.crep (fun c => !(pyDigit c)) 1 false))
        (.seq (reOpt (.seq wsPlus digitsPlus)) .eos)))

/-- `section_patterns` together with the number of groups of each pattern
(Python `len(match.groups())`). -/
def sectionPatterns : List (RE × Nat) :=
  [(sectionPat1, 2), (sectionPat2, 3), (sectionPat3, 2)]

/-- Parent number of a TOC entry:
`'.'.join(number.split('.')[:-1]) if '.' in number else None`. -/
def parentOf (number : List Char) : Option String :=
  if number.contains '.' then
    some (String.mk (List.intercalate ['.'] ((splitChar '.' number).dropLast)))
  else none

/-- Build the `TOCItem` for one matched line of `parse_toc_text`. -/
def buildTocItem (caps : Caps) (ngroups : Nat) : TOCItem :=
  let number := capGet caps 1
  let title := pyStrip (capGet caps 2)
  let page :=
    if ngroups > 2 && !(capGet caps 3).isEmpty then
      some (digitsToNat (capGet caps 3))
    else none
  { number := String.mk number
    title := String.mk title
    level := number.count '.' + 1
    page := page
    parent := parentOf number }

/-- Apply the ordered `section_patterns` to one stripped line, Python
`for pattern in self.section_patterns: match = re.search(...)`. -/
def parseTocLine (line : List Char) : Option TOCItem :=
  firstSome
    (fun pn =>
      match reSearch pn.1 line with
      | some (_, _, caps) => some (buildTocItem caps pn.2)
      | none => none)
    sectionPatterns

/-- `TOCStructureParser.parse_toc_text`: split into lines, strip each,
skip empty lines, keep the first-matching-pattern item per line. -/
def parse_toc_text (toc_text : String) : List TOCItem :=
  (splitChar '\n' toc_text.data).foldr
    (fun rawLine acc =>
      let line := pyStrip rawLine
      if line.isEmpty then acc
      else
        match parseTocLine line with
        | some item => item :: acc
        | none => acc)
    []

/-- CJK class `[一-鿿]`. -/
def isCJK (c : Char) : Bool :=
  0x4e00 ≤ c.toNat && c.toNat ≤ 0x9fff

/-- Extraction pattern `^(\d+(?:\.\d+){0,4})\s+[^\d\n]`. -/
def extractPat1 : RE :=
  .seq .bos
    (.seq (.grp 1 numberRE0)
      (.seq wsPlus (.cls (fun c => !(pyDigit c) && !(c = '\n')))))

/-- Extraction pattern `\n(\d+(?:\.\d+){0,4})\s+[^\d\n]`. -/
def extractPat2 : RE :=
  .seq (reLit '\n')
    (.seq (.grp 1 numberRE0)
      (.seq wsPlus (.cls (fun c => !(pyDigit c) && !(c = '\n')))))

/-- Extraction pattern `第?\s*(\d+(?:\.\d+){0,4})\s*章`. -/
def extractPat3 : RE :=
  .seq (reOpt (reLit '第'))
    (.seq wsStar (.seq (.grp 1 numberRE0) (.seq wsStar (reLit '章'))))

/-- Extraction pattern `(\d+(?:\.\d+){0,4})\s*[、，]`. -/
def extractPat4 : RE :=
  .seq (.grp 1 numberRE0)
    (.seq wsStar (.cls (fun c => c = '、' || c = '，')))

/-- Extraction pattern `(?:^|\n)(\d+(?:\.\d+){0,4})\s*[一-鿿]`. -/
def extractPat5 : RE :=
  .seq (.alt .bos (reLit '\n'))
    (.seq (.grp 1 numberRE0) (.seq wsStar (.cls isCJK)))

/-- Extraction pattern `(?:^|\n)(\d+(?:\.\d+){0,4})\s+[A-Z]`. -/
def extractPat6 : RE :=
  .seq (.alt .bos (reLit '\n'))
    (.seq (.grp 1 numberRE0)
      (.seq wsPlus (.cls (fun c => 'A' ≤ c && c ≤ 'Z'))))

/-- Extraction pattern `(?:^|\n)(\d+(?:\.\d+){1,4})(?:\s|$)`. -/
def extractPat7 : RE :=
  .seq (.alt .bos (reLit '\n'))
    (.seq (.grp 1 numberRE1) (.alt (.cls pyIsSpace) .eos))

/-- The seven ordered patterns of `extract_section_from_text`. -/
def extractPatterns : List RE :=
  [extractPat1, extractPat2, extractPat3, extractPat4, extractPat5,
   extractPat6, extractPat7]

/-- Pattern loop of `extract_section_from_text`: first match whose captured
section passes the validity guard (length at most 10 and at most 4 dots) is
returned; a match failing the guard falls through to the next pattern. -/
def extractLoop (s : List Char) : List RE → Option String
  | [] => none
  | pat :: rest =>
    match reSearch pat s with
    | some r =>
      let sec := capGet r.2.2 1
      if sec.length ≤ 10 && sec.count '.' ≤ 4 then
        some (String.mk sec)
      else extractLoop s rest
    | none => extractLoop s rest

/-- `TOCStructureParser.extract_section_from_text`: scan only the first
2000 characters of the page against the seven ordered patterns. -/
def extract_section_from_text (text : String) : Option String :=
  extractLoop (text.data.take 2000) extractPatterns

/-
  improved_translator_v2.py
-/

/-- `calculate_dynamic_timeout` of `improved_translator_v2.py`:
`min(30 + (text_length // 100), 180)`. -/
def calculate_dynamic_timeout (text_length : Nat) : Nat :=
  min (30 + text_length / 100) 180

/-
  improved_translator_v3.py: retry loop of translate_single_text
-/

/-- Failure condition of one provider attempt in `translate_single_text`:
`none` models a raised exception or a falsy result object, and a returned
text whose `strip()` is empty is also treated as a failed attempt. -/
def attemptFails (r : Option String) : Bool :=
  match r with
  | none => true
  | some s => (pyStrip s.data).isEmpty

/-- Backoff of `translate_single_text`: after a failed attempt with
`attempt < 4`, sleep `2 ** attempt` seconds; the recorded delay is consed
onto the delays of the remaining attempts. -/
def retryStep (attempt : Nat) (rest : String × List Nat) : String × List Nat :=
  if attempt < 4 then (rest.1, 2 ^ attempt :: rest.2) else rest

/-- The `for attempt in range(5)` loop of `translate_single_text`; the second
argument counts the remaining iterations.  The result pairs the returned
string with the ordered list of backoff sleeps performed. -/
def translateLoop (provider : Nat → Option String) : Nat → Nat → String × List Nat
  | _, 0 => ("[Translation failed after 5 attempts]", [])
  | attempt, k + 1 =>
    match provider attempt with
    | some s =>
      if (pyStrip s.data).isEmpty then
        retryStep attempt (translateLoop provider (attempt + 1) k)
      else (s, [])
    | none => retryStep attempt (translateLoop provider (attempt + 1) k)

/-- `translate_single_text` of `improved_translator_v3.py`: up to 5 attempts
with exponential backoff, returning the tagged failure string when all
attempts fail. -/
def translate_single_text (provider : Nat → Option String) : String × List Nat :=
  translateLoop provider 0 5

/-
  improved_translator_v3.py: translate_toc_item
-/

/-- One parsed TOC item as produced by `parse_toc_items` (all fields are
strings; a missing page is the empty string). -/
structure TocEntry where
  number : String
  title : String
  page : String
  original_line : String
deriving DecidableEq

/-- `translate_toc_item` of `improved_translator_v3.py`: a single provider
call on the title (`none` models an exception or falsy result); any failure
or a too-short title returns the original line verbatim. -/
def translate_toc_item (item : TocEntry) (provider : Nat → Option String) : String :=
  if item.title.isEmpty || item.title.length < 2 then item.original_line
  else
    match provider 0 with
    | none => item.original_line
    | some t =>
      if t.isEmpty then item.original_line
      else
        if !item.number.isEmpty && !item.page.isEmpty then
          item.number ++ ". " ++ t ++ " " ++ String.mk (List.replicate 20 '.') ++
            " - " ++ item.page ++ " -"
        else if !item.number.isEmpty then
          item.number ++ ". " ++ t
        else t

/-
  improved_translator_v3.py: content classification
-/

/-- Literal characters as a regex sequence. -/
def reStr : List Char → RE
  | [] => .eps
  | c :: rest => .seq (reLit c) (reStr rest)

/-- Regex `.*`. -/
def dotStar : RE := .crep notNl 0 true

/-- Regex `目\s*录`. -/
def muluRE : RE := .seq (reLit '目') (.seq wsStar (reLit '录'))

/-- Regex `-\s*\d+\s*-`. -/
def pageNumRE : RE :=
  .seq (reLit '-') (.seq wsStar (.seq digitsPlus (.seq wsStar (reLit '-'))))

/-- Regex `\d+\.\d+\.\d+`. -/
def hierRE : RE :=
  .seq digitsPlus (.seq (reLit '.') (.seq digitsPlus (.seq (reLit '.') digitsPlus)))

/-- `detect_toc` of `improved_translator_v3.py`; ratios are modelled over
the rationals. -/
def detect_toc (text : String) : Bool :=
  if (reSearch muluRE text.data).isSome then true
  else
    let dotCount := text.data.count '.'
    let dashCount := text.data.count '-'
    let textLength := text.data.length
    if textLength > 0 &&
        (decide ((dotCount : ℚ) / (textLength : ℚ) > 15 / 100) ||
         decide ((dashCount : ℚ) / (textLength : ℚ) > 1 / 10)) then true
    else if reCount pageNumRE text.data > 10 then true
    else if reCount hierRE text.data > 15 then true
    else false

/-- Table border characters checked by `detect_table`. -/
def tableBorderChars : List Char :=
  ['┃', '│', '├', '┤', '┬', '┴', '─', '║', '╠', '╣']

/-- Regex `表\d+`. -/
def tablePat1 : RE := .seq (reLit '表') digitsPlus

/-- Regex `功能矩阵`. -/
def tablePat2 : RE := reStr ['功', '能', '矩', '阵']

/-- Regex `系统.*功能`. -/
def tablePat3 : RE := .seq (reStr ['系', '统']) (.seq dotStar (reStr ['功', '能']))

/-- Regex `\|.*\|.*\|`. -/
def tablePat4 : RE :=
  .seq (reLit '|') (.seq dotStar (.seq (reLit '|') (.seq dotStar (reLit '|'))))

/-- The `table_patterns` list of `detect_table`. -/
def tablePatterns : List RE := [tablePat1, tablePat2, tablePat3, tablePat4]

/-- `detect_table` of `improved_translator_v3.py`; the line-length average
is modelled over the rationals. -/
def detect_table (text : String) : Bool :=
  let tcc := tableBorderChars.foldl (fun acc c => acc + text.data.count c) 0
  if tcc > 5 then true
  else if tablePatterns.any (fun pat => (reSearch pat text.data).isSome) then true
  else
    let lines := splitChar '\n' text.data
    if lines.length > 3 then
      let lineLengths := (lines.filter (fun l => !(pyStrip l).isEmpty)).map List.length
      if lineLengths.length > 3 then
        let avg : ℚ := (lineLengths.sum : ℚ) / (lineLengths.length : ℚ)
        let similar :=
          (lineLengths.filter (fun n => decide (|(n : ℚ) - avg| < avg * (3 / 10)))).length
        decide ((similar : ℚ) > (lineLengths.length : ℚ) * (6 / 10))
      else false
    else false

/-- The three content kinds distinguished by `translate_with_google_robust`. -/
inductive ContentKind where
  | plain
  | table
  | toc
deriving DecidableEq

/-- Content classification in the priority order used by
`translate_with_google_robust`: the TOC check runs before the table check. -/
def classify (text : String) : ContentKind :=
  if detect_toc text then .toc
  else if detect_table text then .table
  else .plain

/-
  improved_translator_v3.py: smart chunking
-/

/-- `TextChunk` dataclass of `improved_translator_v3.py`. -/
structure TextChunk where
  content : String
  start_index : Nat
  end_index : Nat
  chunk_type : String
deriving DecidableEq, Repr

/-- Python `max(list, default=None)`. -/
def pyMax (l : List Nat) : Option Nat :=
  l.foldl
    (fun acc x =>
      match acc with
      | none => some x
      | some m => some (max m x))
    none

/-- Regex `\n\n+`. -/
def paraRE : RE := .seq (reLit '\n') (.crep (fun c => c = '\n') 1 true)

/-- Regex `[。！？.!?]\s*`. -/
def sentRE : RE :=
  .seq (.cls (fun c => c = '。' || c = '！' || c = '？' || c = '.' || c = '!' || c = '?'))
    wsStar

/-- Regex `[，,;；]\s*`. -/
def commaRE : RE :=
  .seq (.cls (fun c => c = '，' || c = ',' || c = ';' || c = '；')) wsStar

/-- `find_best_split_point` of `improved_translator_v3.py`.  Each step
computes the candidate positions with `re.finditer` over a bounded slice,
takes the maximum candidate not beyond `max_length` (`max(..., default=None)`)
and applies the Python truthiness test `if best` together with the
utilisation threshold. -/
def find_best_split_point (chars : List Char) (maxLength : Nat) : Nat :=
  let paragraphBreaks := (reFindIter paraRE (chars.take (maxLength + 100))).map Prod.fst
  let stepPara : Option Nat :=
    if !paragraphBreaks.isEmpty then
      match pyMax (paragraphBreaks.filter (fun p => p ≤ maxLength)) with
      | some best =>
        if best ≠ 0 && decide ((best : ℚ) > (maxLength : ℚ) * (7 / 10)) then
          some (best + 2)
        else none
      | none => none
    else none
  match stepPara with
  | some r => r
  | none =>
    let sentenceEnds := (reFindIter sentRE (chars.take (maxLength + 50))).map Prod.snd
    let stepSent : Option Nat :=
      if !sentenceEnds.isEmpty then
        match pyMax (sentenceEnds.filter (fun p => p ≤ maxLength)) with
        | some best =>
          if best ≠ 0 && decide ((best : ℚ) > (maxLength : ℚ) * (7 / 10)) then
            some best
          else none
        | none => none
      else none
    match stepSent with
    | some r => r
    | none =>
      let commaPositions := (reFindIter commaRE (chars.take (maxLength + 20))).map Prod.snd
      let stepComma : Option Nat :=
        if !commaPositions.isEmpty then
          match pyMax (commaPositions.filter (fun p => p ≤ maxLength)) with
          | some best =>
            if best ≠ 0 && decide ((best : ℚ) > (maxLength : ℚ) * (8 / 10)) then
              some best
            else none
          | none => none
        else none
      match stepComma with
      | some r => r
      | none =>
        let spacePositions := (reFindIter wsPlus (chars.take (maxLength + 10))).map Prod.snd
        let stepSpace : Option Nat :=
          if !spacePositions.isEmpty then
            match pyMax (spacePositions.filter (fun p => p ≤ maxLength)) with
            | some best => if best ≠ 0 then some best else none
            | none => none
          else none
        match stepSpace with
        | some r => r
        | none => maxLength

/-- The `while current_pos < len(text)` loop of `smart_chunk_text`.  The
second argument is fuel bounding the number of iterations; `none` means the
loop did not finish within the given fuel. -/
def chunkLoop (chars : List Char) (maxLength overlap : Nat) : Nat → Nat → Option (List TextChunk)
  | _, 0 => none
  | pos, fuel + 1 =>
    if pos < chars.length then
      let endPos := min (pos + maxLength) chars.length
      if endPos ≥ chars.length then
        some [⟨String.mk (chars.drop pos), pos, chars.length, "final"⟩]
      else
        let chunkText := (chars.drop pos).take (endPos + 200 - pos)
        let splitPoint := find_best_split_point chunkText maxLength
        let actualEnd := pos + splitPoint
        let piece : TextChunk :=
          ⟨String.mk ((chars.drop pos).take (actualEnd - pos)), pos, actualEnd, "split"⟩
        let nextPos := if actualEnd > overlap then actualEnd - overlap else actualEnd
        (chunkLoop chars maxLength overlap nextPos fuel).map (fun rest => piece :: rest)
    else some []

/-- `smart_chunk_text` of `improved_translator_v3.py` (fuelled loop). -/
def smart_chunk_text (text : String) (maxLength overlap fuel : Nat) : Option (List TextChunk) :=
  if text.length ≤ maxLength then some [⟨text, 0, text.length, "complete"⟩]
  else chunkLoop text.data maxLength overlap 0 fuel

/-
  improved_translator_v3.py: safe_text_cleaning
-/

/-- Dropping a prefix never lengthens a list (termination helper). -/
theorem dwLen {α : Type} (p : α → Bool) : ∀ l : List α, (l.dropWhile p).length ≤ l.length
  | [] => Nat.le_refl 0
  | c :: l => by
    simp only [List.dropWhile]
    cases p c
    · simp
    · simpa using Nat.le_succ_of_le (dwLen p l)

/-- Python `str.split()` with no argument: split on whitespace runs,
dropping empty pieces. -/
def pySplitWs : List Char → List (List Char)
  | [] => []
  | c :: rest =>
    if pyIsSpace c then pySplitWs rest
    else
      (c :: rest.takeWhile (fun d => !pyIsSpace d)) ::
        pySplitWs (rest.dropWhile (fun d => !pyIsSpace d))
termination_by l => l.length
decreasing_by
  all_goals first
    | exact Nat.lt_succ_of_le (dwLen _ rest)
    | (simp; try omega)

/-- `re.sub(r'\.{3,}', '...', s)`: every run of three or more periods is
replaced by exactly three periods. -/
def collapseDots : List Char → List Char
  | [] => []
  | c :: rest =>
    if c = '.' then
      let n := 1 + (rest.takeWhile (fun d => d = '.')).length
      (if n ≥ 3 then ['.', '.', '.'] else List.replicate n '.') ++
        collapseDots (rest.dropWhile (fun d => d = '.'))
    else c :: collapseDots rest
termination_by l => l.length
decreasing_by
  all_goals first
    | exact Nat.lt_succ_of_le (dwLen _ rest)
    | (simp; try omega)

/-- `re.sub(r'\s+', ' ', s)`: every whitespace run is replaced by one
space. -/
def collapseWs : List Char → List Char
  | [] => []
  | c :: rest =>
    if pyIsSpace c then ' ' :: collapseWs (rest.dropWhile pyIsSpace)
    else c :: collapseWs rest
termination_by l => l.length
decreasing_by
  all_goals first
    | exact Nat.lt_succ_of_le (dwLen _ rest)
    | (simp; try omega)

/-- The literal token "None" filtered by the sanitizer. -/
def noneTok : List Char := ['N', 'o', 'n', 'e']

/-- Python `sep.join(parts)`. -/
def pyJoin (sep : List Char) : List (List Char) → List Char
  | [] => []
  | [t] => t
  | t :: rest => t ++ sep ++ pyJoin sep rest

/-- `safe_text_cleaning` of `improved_translator_v3.py`: empty and
"None"-marker inputs yield the empty string; otherwise split on whitespace,
drop tokens that strip to empty or to "None", rejoin with single spaces,
collapse period runs, collapse whitespace runs and strip. -/
def safe_text_cleaning (text : String) : String :=
  if text.data.isEmpty then ""
  else if pyStrip text.data = noneTok then ""
  else
    let cleanParts :=
      ((pySplitWs text.data).map pyStrip).filter
        (fun p => !p.isEmpty && p ≠ noneTok)
    if cleanParts.isEmpty then ""
    else
      let joined := pyJoin [' '] cleanParts
      String.mk (pyStrip (collapseWs (collapseDots joined)))

/-
  toc_structure_parser.py: map_pages_to_sections
-/

/-- One element of the `pages_data` list: the `page_number` and
`original_text` fields used by `map_pages_to_sections`. -/
structure PageData where
  page_number : Nat
  original_text : String
deriving DecidableEq

/-- Dictionary assignment `d[k] = v` for a map modelled as a function. -/
def updateMap (m : Nat → Option String) (k : Nat) (v : String) : Nat → Option String :=
  fun j => if j = k then some v else m j

/-- First pass of `map_pages_to_sections`: record the directly detected
section of every page, in list order. -/
def pass1Aux (m : Nat → Option String) : List PageData → Nat → Option String
  | [] => m
  | pg :: rest =>
    pass1Aux
      (match extract_section_from_text pg.original_text with
       | some s => updateMap m pg.page_number s
       | none => m)
      rest

/-- The direct-detection dictionary after the first pass. -/
def sectionPass1 (pages : List PageData) : Nat → Option String :=
  pass1Aux (fun _ => none) pages

/-- Insertion step of the stable sort modelling Python
`sorted(pages_data, key=lambda x: x['page_number'])`. -/
def insertByNum (x : PageData) : List PageData → List PageData
  | [] => [x]
  | y :: ys =>
    if x.page_number ≤ y.page_number then x :: y :: ys
    else y :: insertByNum x ys

/-- Sort the pages by page number. -/
def sortByNum (l : List PageData) : List PageData := l.foldr insertByNum []

/-- Second pass of `map_pages_to_sections`: walk the pages in ascending
page-number order; a page already in the dictionary updates the running
`current_section`, and a page without an entry inherits `current_section`
when one exists. -/
def pass2 : List PageData → (Nat → Option String) → Option String → (Nat → Option String)
  | [], m, _ => m
  | pg :: rest, m, cur =>
    match m pg.page_number with
    | some s => pass2 rest m (some s)
    | none =>
      match cur with
      | some c => pass2 rest (updateMap m pg.page_number c) (some c)
      | none => pass2 rest m none

/-- `TOCStructureParser.map_pages_to_sections`: direct detection followed by
forward fill over the pages sorted by page number. -/
def map_pages_to_sections (pages : List PageData) : Nat → Option String :=
  pass2 (sortByNum pages) (sectionPass1 pages) none

/-
  Theorems.
-/

/-- One failed attempt of the retry loop backs off and recurses. -/
theorem translateLoop_fail_step (provider : Nat → Option String) (a k : Nat)
    (h : attemptFails (provider a) = true) :
    translateLoop provider a (k + 1) = retryStep a (translateLoop provider (a + 1) k) := by
  cases hp : provider a with
  | none => simp [translateLoop, hp]
  | some s =>
    have hs : (pyStrip s.data).isEmpty = true := by simpa [attemptFails, hp] using h
    simp [translateLoop, hp, hs]

/-- Claim C1: if the provider yields an empty or invalid result on all 5
attempts, `translate_single_text` returns exactly the tagged string
"[Translation failed after 5 attempts]" after backoff sleeps [1, 2, 4, 8]
(15 seconds over the 4 inter-attempt gaps); and for N consecutive initial
failures (N ≤ 5) the delays separating those N failing attempts are the
first N - 1 entries of [1, 2, 4, 8, 16]. -/
theorem claim_C1_retry_backoff :
    (∀ provider : Nat → Option String,
        (∀ i, i < 5 → attemptFails (provider i) = true) →
        translate_single_text provider =
          ("[Translation failed after 5 attempts]", [1, 2, 4, 8])) ∧
    (∀ provider : Nat → Option String, ∀ N, N ≤ 5 →
        (∀ i, i < N → attemptFails (provider i) = true) →
        (translate_single_text provider).2.take (N - 1) =
          List.take (N - 1) [1, 2, 4, 8, 16]) := by
  constructor
  · intro p h
    rw [translate_single_text, translateLoop_fail_step p 0 4 (h 0 (by omega)),
      translateLoop_fail_step p 1 3 (h 1 (by omega)),
      translateLoop_fail_step p 2 2 (h 2 (by omega)),
      translateLoop_fail_step p 3 1 (h 3 (by omega)),
      translateLoop_fail_step p 4 0 (h 4 (by omega))]
    rfl
  · intro p N hN hf
    interval_cases N
    · simp
    · simp
    · rw [translate_single_text, translateLoop_fail_step p 0 4 (hf 0 (by omega))]
      simp [retryStep]
    · rw [translate_single_text, translateLoop_fail_step p 0 4 (hf 0 (by omega)),
        translateLoop_fail_step p 1 3 (hf 1 (by omega))]
      simp [retryStep]
    · rw [translate_single_text, translateLoop_fail_step p 0 4 (hf 0 (by omega)),
        translateLoop_fail_step p 1 3 (hf 1 (by omega)),
        translateLoop_fail_step p 2 2 (hf 2 (by omega))]
      simp [retryStep]
    · rw [translate_single_text, translateLoop_fail_step p 0 4 (hf 0 (by omega)),
        translateLoop_fail_step p 1 3 (hf 1 (by omega)),
        translateLoop_fail_step p 2 2 (hf 2 (by omega)),
        translateLoop_fail_step p 3 1 (hf 3 (by omega))]
      simp [retryStep]

/-- Provider whose every attempt raises (models 5 consecutive failures). -/
def c1AllFail : Nat → Option String := fun _ => none

/-- Witness for claim C1 at a concrete provider that fails all attempts. -/
theorem claim_C1_retry_backoff_witness :
    translate_single_text c1AllFail =
      ("[Translation failed after 5 attempts]", [1, 2, 4, 8]) :=
  claim_C1_retry_backoff.1 c1AllFail (fun _ _ => rfl)

/-- Claim C2 counterexample: at input length 1000 the code computes a
timeout of 40 seconds, not the 130 seconds demanded by the formula
`min(30 + floor(L/100)*10, 180)` stated in the specification. -/
theorem claim_C2_counterexample :
    calculate_dynamic_timeout 1000 ≠ min (30 + 1000 / 100 * 10) 180 := by
  decide

/-- Claim C2 amended: the dynamic timeout equals
`min(30 + floor(L/100), 180)`, that is, `30 + floor(L/100)` capped at 180
(the cap binds exactly for L ≥ 15100, and from L = 15000 the value is
already 180). -/
theorem claim_C2_amended (L : Nat) :
    calculate_dynamic_timeout L = if L < 15100 then 30 + L / 100 else 180 := by
  rw [calculate_dynamic_timeout, Nat.min_def]
  split <;> split <;> omega

/-- TOC entry used in the claim C3 analysis. -/
def c3item : TocEntry :=
  { number := "1.1"
    title := "项目背景"
    page := "2"
    original_line := "1.1 项目背景 ......................... 2" }

/-- Provider that fails on the first attempt and succeeds on the second. -/
def c3provider : Nat → Option String :=
  fun i => if i = 0 then none else some "Project Background"

/-- Claim C3 counterexample: with a provider that fails once and then
succeeds, the page-level retry mechanism recovers, but `translate_toc_item`
gives up after its single attempt and returns the original line, so it does
not apply the 5-attempt backoff mechanism claimed. -/
theorem claim_C3_counterexample :
    translate_toc_item c3item c3provider = c3item.original_line ∧
    (translate_single_text c3provider).1 = "Project Background" ∧
    translate_toc_item c3item c3provider ≠
      "1.1. Project Background " ++ String.mk (List.replicate 20 '.') ++ " - 2 -" := by
  refine ⟨rfl, rfl, ?_⟩
  decide

/-- Claim C3 amended: `translate_toc_item` performs exactly one provider
attempt on the title alone (its result depends only on attempt 0); on
failure of that attempt (exception or empty result) it returns the item's
original untranslated line verbatim, with no error tag, as it also does for
titles shorter than 2 characters. -/
theorem claim_C3_amended (item : TocEntry) (p q : Nat → Option String) :
    ((p 0 = none ∨ p 0 = some "") →
        translate_toc_item item p = item.original_line) ∧
    (p 0 = q 0 → translate_toc_item item p = translate_toc_item item q) := by
  constructor
  · rintro (h | h) <;> simp [translate_toc_item, h, String.isEmpty]
  · intro h
    unfold translate_toc_item
    rw [h]

/-- TOC entry for the claim C3 witness. -/
def c3witnessItem : TocEntry :=
  { number := "2.1"
    title := "用户管理"
    page := ""
    original_line := "2.1 用户管理" }

/-- Provider whose single consumed attempt raises. -/
def c3witnessProvider : Nat → Option String := fun _ => none

/-- Witness for claim C3 amended: a failing single attempt returns the
original line. -/
theorem claim_C3_amended_witness :
    translate_toc_item c3witnessItem c3witnessProvider = c3witnessItem.original_line :=
  (claim_C3_amended c3witnessItem c3witnessProvider c3witnessProvider).1 (Or.inl rfl)

/-- The TOC text of the claim C4 scenario. -/
def c4text : String :=
  "1 系统概述 ........................... 1\n1.1 项目背景 ......................... 2"

/-- Claim C4 counterexample: the scenario text does not parse to the two
claimed TOCItems (the level-1 line matches no pattern, and the page of the
second line is not captured). -/
theorem claim_C4_counterexample :
    parse_toc_text c4text ≠
      [{ number := "1", title := "系统概述", level := 1, page := some 1, parent := none },
       { number := "1.1", title := "项目背景", level := 2, page := some 2,
         parent := some "1" }] := by
  decide

/-- Claim C4 amended: the scenario text parses to exactly one TOCItem,
for the second line only: number "1.1", title "项目背景", level 2, no page
(the first listed pattern, which has no page group, wins), parent "1"; the
first line "1 系统概述 ..." yields no item because every `section_patterns`
entry requires a dotted section number. -/
theorem claim_C4_amended :
    parse_toc_text c4text =
      [{ number := "1.1", title := "项目背景", level := 2, page := none,
         parent := some "1" }] := by
  decide

/-- Claim C6: for every string of length at most `max_length`, the chunk
splitter returns exactly one chunk whose content is the whole input, whose
kind is "complete" and whose span is [0, length]. -/
theorem claim_C6_single_chunk (text : String) (maxLength overlap fuel : Nat)
    (h : text.length ≤ maxLength) :
    smart_chunk_text text maxLength overlap fuel =
      some [{ content := text, start_index := 0, end_index := text.length,
              chunk_type := "complete" }] := by
  simp [smart_chunk_text, h]

/-- Witness for claim C6 at a concrete short input. -/
theorem claim_C6_single_chunk_witness :
    smart_chunk_text ("abc") 800 100 0 =
      some [{ content := "abc", start_index := 0, end_index := 3,
              chunk_type := "complete" }] := by
  have h := claim_C6_single_chunk ("abc") 800 100 0 (by decide)
  simpa using h

/-- Claim C7: every page text of 200 characters of which 60 are periods has
period ratio 0.30 > 0.15, so the content classifier labels it TOC, whatever
the remaining content is. -/
theorem claim_C7_toc_ratio (text : String)
    (hlen : text.data.length = 200) (hdots : text.data.count '.' = 60) :
    classify text = ContentKind.toc := by
  have hdet : detect_toc text = true := by
    unfold detect_toc
    cases hmulu : (reSearch muluRE text.data).isSome
    · simp [hmulu, hlen]
      left
      left
      rw [hdots]
      norm_num
    · simp [hmulu]
  simp [classify, hdet]

/-- A concrete 200-character page text with 60 periods. -/
def c7text : String := String.mk (List.replicate 140 'a' ++ List.replicate 60 '.')

/-- Witness for claim C7 at a concrete 200-character text. -/
theorem claim_C7_toc_ratio_witness : classify c7text = ContentKind.toc :=
  claim_C7_toc_ratio c7text (by decide) (by decide)

/-- The pattern loop of `extract_section_from_text` only returns candidates
that pass the length-and-dots guard. -/
theorem extractLoop_guard (s : List Char) :
    ∀ pats sec, extractLoop s pats = some sec →
      sec.length ≤ 10 ∧ sec.data.count '.' ≤ 4 := by
  intro pats
  induction pats with
  | nil => intro sec h; simp [extractLoop] at h
  | cons pat rest ih =>
    intro sec h
    rw [extractLoop] at h
    cases hs : reSearch pat s with
    | none =>
      rw [hs] at h
      exact ih sec h
    | some r =>
      rw [hs] at h
      dsimp only at h
      split at h
      · next hg =>
        have hsec : sec = String.mk (capGet r.2.2 1) := (Option.some_inj.mp h).symm
        subst hsec
        simp only [Bool.and_eq_true, decide_eq_true_eq] at hg
        exact ⟨hg.1, hg.2⟩
      · next => exact ih sec h

/-- Claim C8: every section string returned by `extract_section_from_text`
has length at most 10 and contains at most 4 dots. -/
theorem claim_C8_section_guard (text sec : String)
    (h : extract_section_from_text text = some sec) :
    sec.length ≤ 10 ∧ sec.data.count '.' ≤ 4 :=
  extractLoop_guard (text.data.take 2000) extractPatterns sec h

/-- Page text for the claim C8 witness. -/
def c8text : String := "3.1.1 系统概述\n这是内容..."

/-- Witness for claim C8: the section "3.1.1" extracted from a concrete
page satisfies both bounds. -/
theorem claim_C8_section_guard_witness :
    ("3.1.1" : String).length ≤ 10 ∧ ("3.1.1" : String).data.count '.' ≤ 4 :=
  claim_C8_section_guard c8text ("3.1.1") (by decide)

/-- An 802-character text (100 letters, one space, 701 letters) on which the
chunking loop never advances: the only split candidate is the space at index
100, so from position 1 the split point is 100 and the overlap subtraction
returns the position to 1 forever. -/
def c9text : String := String.mk (List.replicate 100 'a' ++ ' ' :: List.replicate 701 'a')

/-- Length of the claim C9 input. -/
theorem c9len : c9text.data.length = 802 := by decide

/-- Split point computed from position 1 of the claim C9 input. -/
theorem c9split1 : find_best_split_point (List.take 1000 c9text.data.tail) 800 = 100 := by
  decide

/-- Split point computed from position 0 of the claim C9 input. -/
theorem c9split0 : find_best_split_point (List.take 1000 c9text.data) 800 = 101 := by
  decide

/-- From position 1 the chunking loop on the claim C9 input never
terminates, whatever the fuel. -/
theorem c9loop1 : ∀ fuel, chunkLoop c9text.data 800 100 1 fuel = none := by
  intro fuel
  induction fuel with
  | zero => rfl
  | succ f ih =>
    simp only [chunkLoop, c9len]
    norm_num
    rw [c9split1]
    norm_num
    exact ih

/-- Claim C9 refutation: `smart_chunk_text` with the pipeline defaults
`max_length = 800`, `overlap = 100` does not terminate on `c9text` — the
loop position stops making forward progress, so no amount of fuel produces
a result. -/
theorem claim_C9_nontermination :
    ∀ fuel : Nat, smart_chunk_text c9text 800 100 fuel = none := by
  have hgt : ¬ c9text.length ≤ 800 := by decide
  intro fuel
  cases fuel with
  | zero =>
    rw [smart_chunk_text, if_neg hgt]
    rfl
  | succ f =>
    rw [smart_chunk_text, if_neg hgt]
    simp only [chunkLoop, c9len]
    norm_num
    rw [c9split0]
    norm_num
    exact c9loop1 f

/-
  Lemmas towards claim C10 (idempotence of safe_text_cleaning).
-/

/-- Characters of a stripped list come from the original list. -/
theorem mem_pyStrip {c : Char} {l : List Char} (h : c ∈ pyStrip l) : c ∈ l := by
  unfold pyStrip at h
  rw [List.mem_reverse] at h
  have h2 := (List.dropWhile_sublist _).mem h
  rw [List.mem_reverse] at h2
  exact (List.dropWhile_sublist _).mem h2

/-- `dropWhile` is the identity when `takeWhile` is empty. -/
theorem dropWhile_of_takeWhile_nil {q : Char → Bool} {l : List Char}
    (h : l.takeWhile q = []) : l.dropWhile q = l := by
  cases l with
  | nil => rfl
  | cons c rest =>
    rw [List.takeWhile_cons] at h
    rw [List.dropWhile_cons]
    by_cases hq : q c = true
    · rw [if_pos hq] at h
      exact absurd h (by simp)
    · rw [if_neg hq]

/-- A `takeWhile` scan never reaches past a failing suffix. -/
theorem takeWhile_append_stop {q : Char → Bool} {r : List Char}
    (hr : r.takeWhile q = []) : ∀ a : List Char, (a ++ r).takeWhile q = a.takeWhile q := by
  intro a
  induction a with
  | nil => simpa using hr
  | cons c a2 ih =>
    rw [List.cons_append, List.takeWhile_cons, List.takeWhile_cons]
    by_cases hq : q c = true
    · rw [if_pos hq, if_pos hq, ih]
    · rw [if_neg hq, if_neg hq]

/-- A `dropWhile` scan stops no later than a failing suffix. -/
theorem dropWhile_append_stop {q : Char → Bool} {r : List Char}
    (hr : r.takeWhile q = []) : ∀ a : List Char, (a ++ r).dropWhile q = a.dropWhile q ++ r := by
  intro a
  induction a with
  | nil => simp [dropWhile_of_takeWhile_nil hr]
  | cons c a2 ih =>
    rw [List.cons_append, List.dropWhile_cons, List.dropWhile_cons]
    by_cases hq : q c = true
    · rw [if_pos hq, if_pos hq, ih]
    · rw [if_neg hq, if_neg hq, List.cons_append]

/-- After a `dropWhile` scan no prefix satisfies the predicate. -/
theorem takeWhile_dropWhile_nil {q : Char → Bool} : ∀ l : List Char,
    (l.dropWhile q).takeWhile q = [] := by
  intro l
  induction l with
  | nil => rfl
  | cons c rest ih =>
    rw [List.dropWhile_cons]
    by_cases hq : q c = true
    · rw [if_pos hq]; exact ih
    · rw [if_neg hq, List.takeWhile_cons, if_neg hq]

/-- `takeWhile` is empty when every element fails the predicate. -/
theorem takeWhile_nil_of_all_neg {q : Char → Bool} {l : List Char}
    (h : ∀ c ∈ l, q c = false) : l.takeWhile q = [] := by
  cases l with
  | nil => rfl
  | cons c rest =>
    rw [List.takeWhile_cons, if_neg (by simp [h c (List.mem_cons_self c rest)])]

/-- Mapping a function that fixes every element is the identity. -/
theorem map_self_of {α : Type} {f : α → α} : ∀ l : List α,
    (∀ a ∈ l, f a = a) → l.map f = l := by
  intro l
  induction l with
  | nil => intro _; rfl
  | cons a rest ih =>
    intro h
    rw [List.map_cons, h a (List.mem_cons_self a rest),
      ih (fun b hb => h b (List.mem_cons_of_mem a hb))]

/-- Stripping a whitespace-free list is the identity. -/
theorem pyStrip_of_noWs {l : List Char} (h : ∀ c ∈ l, pyIsSpace c = false) :
    pyStrip l = l := by
  unfold pyStrip
  rw [dropWhile_of_takeWhile_nil (takeWhile_nil_of_all_neg h),
    dropWhile_of_takeWhile_nil
      (takeWhile_nil_of_all_neg (fun c hc => h c (List.mem_reverse.mp hc))),
    List.reverse_reverse]

/-- Stripping a list whose two ends are not whitespace is the identity. -/
theorem pyStrip_of_ends {l : List Char}
    (h1 : ∀ c, l.head? = some c → pyIsSpace c = false)
    (h2 : ∀ c, l.getLast? = some c → pyIsSpace c = false) :
    pyStrip l = l := by
  have hdw : ∀ m : List Char, (∀ c, m.head? = some c → pyIsSpace c = false) →
      m.dropWhile pyIsSpace = m := by
    intro m hm
    cases m with
    | nil => rfl
    | cons c rest =>
      rw [List.dropWhile_cons, if_neg (by simp [hm c rfl])]
  unfold pyStrip
  rw [hdw l h1, hdw l.reverse (fun c hc => h2 c (by rwa [List.head?_reverse] at hc)),
    List.reverse_reverse]

/-- Unfolding `collapseDots` on the empty list. -/
theorem collapseDots_nil : collapseDots [] = [] := by
  rw [collapseDots]

/-- Unfolding `collapseDots` on a non-period head. -/
theorem collapseDots_cons_ne {c : Char} (h : ¬ c = '.') (l : List Char) :
    collapseDots (c :: l) = c :: collapseDots l := by
  rw [collapseDots, if_neg h]

/-- `collapseDots` fixes period-free lists. -/
theorem collapseDots_of_noDot : ∀ l : List Char, (∀ c ∈ l, c ≠ '.') → collapseDots l = l := by
  intro l
  induction l with
  | nil => intro _; exact collapseDots_nil
  | cons c rest ih =>
    intro h
    rw [collapseDots_cons_ne (h c (List.mem_cons_self c rest)),
      ih (fun d hd => h d (List.mem_cons_of_mem c hd))]

/-- The leading period run of any list is a replicate of periods. -/
theorem takeWhile_dot_replicate (rest : List Char) :
    rest.takeWhile (fun d => d = '.') =
      List.replicate (rest.takeWhile (fun d => d = '.')).length '.' :=
  List.eq_replicate_of_mem (fun b hb => by simpa using List.mem_takeWhile_imp hb)

/-- Decomposition of a period-headed list into its leading run and the
rest. -/
theorem dot_run_decomp {rest : List Char} :
    '.' :: rest =
      List.replicate (1 + (rest.takeWhile (fun d => d = '.')).length) '.' ++
        rest.dropWhile (fun d => d = '.') := by
  conv_lhs => rw [← List.takeWhile_append_dropWhile (fun d => decide (d = '.')) rest]
  rw [Nat.add_comm, List.replicate_succ, List.cons_append, ← takeWhile_dot_replicate]

/-- Collapsing a period run followed by a run-free suffix. -/
theorem collapseDots_run {n : Nat} (hn : 1 ≤ n) {X : List Char}
    (hX : X.takeWhile (fun d => d = '.') = []) :
    collapseDots (List.replicate n '.' ++ X) =
      (if 3 ≤ n then List.replicate 3 '.' else List.replicate n '.') ++ collapseDots X := by
  obtain ⟨m, rfl⟩ : ∃ m, n = m + 1 := ⟨n - 1, by omega⟩
  rw [List.replicate_succ, List.cons_append, collapseDots, if_pos rfl]
  have htw : (List.replicate m '.' ++ X).takeWhile (fun d => d = '.') = List.replicate m '.' := by
    rw [takeWhile_append_stop hX, List.takeWhile_eq_self_iff.mpr]
    intro x hx
    simp [List.eq_of_mem_replicate hx]
  have hdw : (List.replicate m '.' ++ X).dropWhile (fun d => d = '.') = X := by
    rw [dropWhile_append_stop hX, List.dropWhile_eq_nil_iff.mpr, List.nil_append]
    intro x hx
    simp [List.eq_of_mem_replicate hx]
  simp only [htw, hdw, List.length_replicate]
  rw [Nat.add_comm 1 m]
  rcases le_or_lt 3 (m + 1) with h3 | h3
  · rw [if_pos h3, if_pos h3]
    rfl
  · rw [if_neg (by omega), if_neg (by omega), List.replicate_succ, List.cons_append]

/-- A list with no leading period keeps that property after collapsing. -/
theorem collapseDots_head {X : List Char} (hX : X.takeWhile (fun d => d = '.') = []) :
    (collapseDots X).takeWhile (fun d => d = '.') = [] := by
  cases X with
  | nil => rw [collapseDots_nil]; rfl
  | cons c rest =>
    by_cases hc : c = '.'
    · rw [List.takeWhile_cons, if_pos (by simp [hc])] at hX
      exact absurd hX (by simp)
    · rw [collapseDots_cons_ne hc, List.takeWhile_cons, if_neg (by simp [hc])]

/-- Collapsing never empties a nonempty list. -/
theorem collapseDots_ne_nil {l : List Char} (h : l ≠ []) : collapseDots l ≠ [] := by
  cases l with
  | nil => exact absurd rfl h
  | cons c rest =>
    by_cases hc : c = '.'
    · subst hc
      rw [collapseDots, if_pos rfl]
      intro hcontra
      rcases List.append_eq_nil.mp hcontra with ⟨hblk, _⟩
      revert hblk
      split <;> simp
    · rw [collapseDots_cons_ne hc]
      simp

/-- Characters of a collapsed list are periods or original characters. -/
theorem mem_collapseDots : ∀ l : List Char, ∀ c ∈ collapseDots l, c = '.' ∨ c ∈ l := by
  intro l
  induction l using collapseDots.induct with
  | case1 => intro c hc; simp [collapseDots] at hc
  | case2 rest ih =>
    intro c hc
    rw [collapseDots, if_pos rfl] at hc
    rcases List.mem_append.mp hc with h1 | h1
    · left
      revert h1
      split
      · intro h1; simpa using h1
      · intro h1; exact (List.eq_of_mem_replicate h1)
    · rcases ih c h1 with h2 | h2
      · exact Or.inl h2
      · exact Or.inr (List.mem_cons_of_mem _ ((List.dropWhile_sublist _).mem h2))
  | case3 c2 rest hc2 ih =>
    intro c hc
    rw [collapseDots_cons_ne hc2] at hc
    rcases List.mem_cons.mp hc with h1 | h1
    · exact Or.inr (h1 ▸ List.mem_cons_self _ _)
    · rcases ih c h1 with h2 | h2
      · exact Or.inl h2
      · exact Or.inr (List.mem_cons_of_mem _ h2)

/-- Collapsing preserves the presence of a period. -/
theorem dot_mem_collapseDots : ∀ l : List Char, '.' ∈ l → '.' ∈ collapseDots l := by
  intro l
  induction l using collapseDots.induct with
  | case1 => intro h; simp at h
  | case2 rest ih =>
    intro _
    rw [collapseDots, if_pos rfl]
    apply List.mem_append_left
    split <;> simp
  | case3 c rest hc ih =>
    intro hmem
    rw [collapseDots_cons_ne hc]
    rcases List.mem_cons.mp hmem with h1 | h1
    · exact absurd h1.symm hc
    · exact List.mem_cons_of_mem _ (ih h1)

/-- Only the token "None" collapses to "None". -/
theorem collapseDots_eq_noneTok {t : List Char} (h : collapseDots t = noneTok) :
    t = noneTok := by
  by_cases hd : '.' ∈ t
  · have hmem := dot_mem_collapseDots t hd
    rw [h] at hmem
    exact absurd hmem (by decide)
  · rw [← collapseDots_of_noDot t (fun c hc hceq => hd (hceq ▸ hc)), h]

/-- Distribution of the period collapse over a single-space separator. -/
theorem collapseDots_append_space : ∀ a r : List Char,
    collapseDots (a ++ ' ' :: r) = collapseDots a ++ ' ' :: collapseDots r := by
  intro a
  induction a using collapseDots.induct with
  | case1 =>
    intro r
    rw [List.nil_append, collapseDots_cons_ne (by decide), collapseDots_nil,
      List.nil_append]
  | case2 rest ih =>
    intro r
    have hX : (rest.dropWhile (fun d => d = '.')).takeWhile (fun d => d = '.') = [] :=
      takeWhile_dropWhile_nil rest
    have hsp : ((' ' : Char) :: r).takeWhile (fun d => d = '.') = [] := by
      rw [List.takeWhile_cons, if_neg (by decide)]
    have hXr : ((rest.dropWhile (fun d => d = '.')) ++ ' ' :: r).takeWhile
        (fun d => d = '.') = [] := by
      rw [takeWhile_append_stop hsp]
      exact hX
    rw [dot_run_decomp, List.append_assoc,
      collapseDots_run (by omega) hXr, collapseDots_run (by omega) hX,
      ih r, List.append_assoc]
  | case3 c rest hc ih =>
    intro r
    rw [List.cons_append, collapseDots_cons_ne hc, collapseDots_cons_ne hc, ih r,
      List.cons_append]

/-- Collapsing twice equals collapsing once. -/
theorem collapseDots_idem : ∀ l : List Char, collapseDots (collapseDots l) = collapseDots l := by
  intro l
  induction l using collapseDots.induct with
  | case1 => rw [collapseDots_nil, collapseDots_nil]
  | case2 rest ih =>
    have hX : (rest.dropWhile (fun d => d = '.')).takeWhile (fun d => d = '.') = [] :=
      takeWhile_dropWhile_nil rest
    rw [dot_run_decomp, collapseDots_run (by omega) hX]
    rcases le_or_lt 3 (1 + (rest.takeWhile (fun d => d = '.')).length) with h3 | h3
    · rw [if_pos h3, collapseDots_run (by omega) (collapseDots_head hX), if_pos (by omega),
        ih]
    · rw [if_neg (by omega), collapseDots_run (by omega) (collapseDots_head hX),
        if_neg (by omega), ih]
  | case3 c rest hc ih =>
    rw [collapseDots_cons_ne hc, collapseDots_cons_ne hc, ih]

/-- Tokens produced by the Python whitespace split are nonempty and contain
no whitespace. -/
theorem pySplitWs_tokens : ∀ l : List Char, ∀ t ∈ pySplitWs l,
    t ≠ [] ∧ ∀ c ∈ t, pyIsSpace c = false := by
  intro l
  induction l using pySplitWs.induct with
  | case1 => intro t ht; simp [pySplitWs] at ht
  | case2 c rest hc ih =>
    intro t ht
    rw [pySplitWs, if_pos hc] at ht
    exact ih t ht
  | case3 c rest hc ih =>
    intro t ht
    rw [pySplitWs, if_neg hc] at ht
    rcases List.mem_cons.mp ht with h | h
    · subst h
      refine ⟨by simp, ?_⟩
      intro d hd
      rcases List.mem_cons.mp hd with h | h
      · subst h; simpa using hc
      · have := List.mem_takeWhile_imp h
        simpa using this
    · exact ih t h

/-- Unfolding `collapseWs` on the empty list. -/
theorem collapseWs_nil : collapseWs [] = [] := by
  rw [collapseWs]

/-- Unfolding `collapseWs` on a non-whitespace head. -/
theorem collapseWs_cons_ne {c : Char} (h : pyIsSpace c = false) (l : List Char) :
    collapseWs (c :: l) = c :: collapseWs l := by
  rw [collapseWs, if_neg (by simp [h])]

/-- `collapseWs` fixes whitespace-free lists. -/
theorem collapseWs_of_noWs : ∀ l : List Char, (∀ c ∈ l, pyIsSpace c = false) →
    collapseWs l = l := by
  intro l
  induction l with
  | nil => intro _; exact collapseWs_nil
  | cons c rest ih =>
    intro h
    rw [collapseWs_cons_ne (h c (List.mem_cons_self c rest)),
      ih (fun d hd => h d (List.mem_cons_of_mem c hd))]

/-- `collapseWs` passes over a whitespace-free prefix. -/
theorem collapseWs_append_noWs : ∀ t r : List Char, (∀ c ∈ t, pyIsSpace c = false) →
    collapseWs (t ++ r) = t ++ collapseWs r := by
  intro t
  induction t with
  | nil => intro r _; rw [List.nil_append, List.nil_append]
  | cons c t2 ih =>
    intro r h
    rw [List.cons_append, collapseWs_cons_ne (h c (List.mem_cons_self c t2)),
      ih r (fun d hd => h d (List.mem_cons_of_mem c hd)), List.cons_append]

/-- Unfolding `pyJoin` on the empty token list. -/
theorem pyJoin_nil (sep : List Char) : pyJoin sep [] = [] := by
  rw [pyJoin]

/-- Unfolding `pyJoin` on a single token. -/
theorem pyJoin_single (sep t : List Char) : pyJoin sep [t] = t := by
  rw [pyJoin]

/-- Unfolding `pyJoin` on at least two tokens, with the single-space
separator consed on. -/
theorem pyJoin_cons_cons (t t2 : List Char) (r : List (List Char)) :
    pyJoin [' '] (t :: t2 :: r) = t ++ ' ' :: pyJoin [' '] (t2 :: r) := by
  rw [pyJoin, List.append_assoc, List.singleton_append] <;> simp

/-- A joined token list starts with the first token. -/
theorem pyJoin_cons_form (sep t : List Char) :
    ∀ rest, ∃ zz, pyJoin sep (t :: rest) = t ++ zz := by
  intro rest
  cases rest with
  | nil => exact ⟨[], by rw [pyJoin_single, List.append_nil]⟩
  | cons t2 r =>
    exact ⟨sep ++ pyJoin sep (t2 :: r), by rw [pyJoin, List.append_assoc] <;> simp⟩

/-- A join headed by a nonempty token is nonempty. -/
theorem pyJoin_ne_nil {t : List Char} (ht : t ≠ []) (rest : List (List Char)) :
    pyJoin [' '] (t :: rest) ≠ [] := by
  obtain ⟨zz, hz⟩ := pyJoin_cons_form [' '] t rest
  rw [hz]
  cases t with
  | nil => exact absurd rfl ht
  | cons c t2 => simp

/-- The last character of a join of nonempty tokens is the last character
of one of the tokens. -/
theorem pyJoin_getLast : ∀ (rest : List (List Char)) (t : List Char), t ≠ [] →
    (∀ u ∈ t :: rest, u ≠ []) →
    ∃ u ∈ t :: rest, (pyJoin [' '] (t :: rest)).getLast? = u.getLast? := by
  intro rest
  induction rest with
  | nil =>
    intro t ht _
    refine ⟨t, List.mem_cons_self t [], ?_⟩
    rw [pyJoin_single]
  | cons t2 r ih =>
    intro t ht hall
    have ht2 : t2 ≠ [] := hall t2 (List.mem_cons_of_mem t (List.mem_cons_self t2 r))
    obtain ⟨u, hu, heq⟩ := ih t2 ht2 (fun v hv => hall v (List.mem_cons_of_mem t hv))
    refine ⟨u, List.mem_cons_of_mem t hu, ?_⟩
    rw [pyJoin_cons_cons,
      List.getLast?_append_of_ne_nil _ (by simp),
      show (' ' :: pyJoin [' '] (t2 :: r)) = [' '] ++ pyJoin [' '] (t2 :: r) from rfl,
      List.getLast?_append_of_ne_nil _ (pyJoin_ne_nil ht2 r), heq]

/-- Stripping a join of nonempty whitespace-free tokens is the identity. -/
theorem pyStrip_pyJoin : ∀ toks : List (List Char),
    (∀ t ∈ toks, t ≠ [] ∧ ∀ c ∈ t, pyIsSpace c = false) →
    pyStrip (pyJoin [' '] toks) = pyJoin [' '] toks := by
  intro toks h
  cases toks with
  | nil => rfl
  | cons t rest =>
    obtain ⟨ht, hw⟩ := h t (List.mem_cons_self t rest)
    apply pyStrip_of_ends
    · intro c hc
      obtain ⟨zz, hz⟩ := pyJoin_cons_form [' '] t rest
      rw [hz] at hc
      cases t with
      | nil => exact absurd rfl ht
      | cons c0 t2 =>
        rw [List.cons_append] at hc
        have hc0 : c = c0 := by simpa using hc.symm
        subst hc0
        exact hw c (List.mem_cons_self c t2)
    · intro c hc
      obtain ⟨u, hu, heq⟩ := pyJoin_getLast rest t ht (fun v hv => (h v hv).1)
      rw [heq] at hc
      exact (h u hu).2 c (List.mem_of_mem_getLast? hc)

/-- Collapsing whitespace in a join of nonempty whitespace-free tokens is
the identity. -/
theorem collapseWs_pyJoin : ∀ toks : List (List Char),
    (∀ t ∈ toks, t ≠ [] ∧ ∀ c ∈ t, pyIsSpace c = false) →
    collapseWs (pyJoin [' '] toks) = pyJoin [' '] toks := by
  intro toks
  induction toks with
  | nil => intro _; exact collapseWs_nil
  | cons t rest ih =>
    intro h
    obtain ⟨ht, hw⟩ := h t (List.mem_cons_self t rest)
    cases rest with
    | nil =>
      rw [pyJoin_single]
      exact collapseWs_of_noWs t hw
    | cons t2 r =>
      rw [pyJoin_cons_cons, collapseWs_append_noWs t _ hw]
      congr 1
      rw [collapseWs, if_pos (by decide)]
      have ht2 : t2 ≠ [] := (h t2 (List.mem_cons_of_mem t (List.mem_cons_self t2 r))).1
      obtain ⟨zz, hz⟩ := pyJoin_cons_form [' '] t2 r
      have hdw : (pyJoin [' '] (t2 :: r)).dropWhile pyIsSpace = pyJoin [' '] (t2 :: r) := by
        rw [hz]
        cases t2 with
        | nil => exact absurd rfl ht2
        | cons c0 u =>
          rw [List.cons_append, List.dropWhile_cons,
            if_neg (by simp [(h (c0 :: u) (List.mem_cons_of_mem t
              (List.mem_cons_self _ r))).2 c0 (List.mem_cons_self c0 u)])]
      rw [hdw, ih (fun v hv => h v (List.mem_cons_of_mem t hv))]

/-- The period collapse distributes over the single-space join. -/
theorem collapseDots_pyJoin : ∀ toks : List (List Char),
    collapseDots (pyJoin [' '] toks) = pyJoin [' '] (toks.map collapseDots) := by
  intro toks
  induction toks with
  | nil => rw [pyJoin_nil, List.map_nil, pyJoin_nil, collapseDots_nil]
  | cons t rest ih =>
    cases rest with
    | nil => rw [List.map_cons, List.map_nil, pyJoin_single, pyJoin_single]
    | cons t2 r =>
      have hJ2 : pyJoin [' '] ((t :: t2 :: r).map collapseDots) =
          collapseDots t ++ ' ' :: pyJoin [' '] ((t2 :: r).map collapseDots) := by
        rw [List.map_cons, List.map_cons, pyJoin_cons_cons]
      rw [pyJoin_cons_cons, collapseDots_append_space, ih, hJ2]

/-- Splitting a join of nonempty whitespace-free tokens recovers the
tokens. -/
theorem pySplitWs_pyJoin : ∀ toks : List (List Char),
    (∀ t ∈ toks, t ≠ [] ∧ ∀ c ∈ t, pyIsSpace c = false) →
    pySplitWs (pyJoin [' '] toks) = toks := by
  intro toks
  induction toks with
  | nil =>
    intro _
    rw [pyJoin_nil, pySplitWs]
  | cons t rest ih =>
    intro h
    obtain ⟨ht, hw⟩ := h t (List.mem_cons_self t rest)
    obtain ⟨c, t2, rfl⟩ : ∃ c t2, t = c :: t2 := by
      cases t with
      | nil => exact absurd rfl ht
      | cons c t2 => exact ⟨c, t2, rfl⟩
    have hcw : pyIsSpace c = false := hw c (List.mem_cons_self c t2)
    have hw2 : ∀ d ∈ t2, (fun d => !pyIsSpace d) d = true := by
      intro d hd
      simp [hw d (List.mem_cons_of_mem c hd)]
    cases rest with
    | nil =>
      rw [pyJoin_single, pySplitWs, if_neg (by simp [hcw]),
        List.takeWhile_eq_self_iff.mpr hw2, List.dropWhile_eq_nil_iff.mpr hw2,
        pySplitWs]
    | cons u r =>
      have hJ : pyJoin [' '] ((c :: t2) :: u :: r) =
          c :: (t2 ++ ' ' :: pyJoin [' '] (u :: r)) := by
        rw [pyJoin_cons_cons, List.cons_append]
      have hstop : (' ' :: pyJoin [' '] (u :: r)).takeWhile (fun d => !pyIsSpace d) = [] := by
        rw [List.takeWhile_cons, if_neg (by decide)]
      rw [hJ, pySplitWs, if_neg (by simp [hcw]),
        takeWhile_append_stop hstop, dropWhile_append_stop hstop,
        List.takeWhile_eq_self_iff.mpr hw2, List.dropWhile_eq_nil_iff.mpr hw2,
        List.nil_append, pySplitWs, if_pos (by decide),
        ih (fun v hv => h v (List.mem_cons_of_mem _ hv))]

/-- A join of tokens none of which is "None" is not "None". -/
theorem pyJoin_ne_noneTok : ∀ toks : List (List Char),
    (∀ t ∈ toks, t ≠ [] ∧ t ≠ noneTok) → pyJoin [' '] toks ≠ noneTok := by
  intro toks h
  cases toks with
  | nil =>
    rw [pyJoin_nil]
    decide
  | cons t rest =>
    cases rest with
    | nil =>
      rw [pyJoin_single]
      exact (h t (List.mem_cons_self t [])).2
    | cons u r =>
      intro hcontra
      have hsp : ' ' ∈ pyJoin [' '] (t :: u :: r) := by
        rw [pyJoin_cons_cons]
        exact List.mem_append_right _ (List.mem_cons_self _ _)
      rw [hcontra] at hsp
      exact absurd hsp (by decide)

/-- Unfolding `safe_text_cleaning` in the main (non-degenerate) case. -/
theorem clean_of_parts {s : String} {toks : List (List Char)}
    (htoks : ((pySplitWs s.data).map pyStrip).filter
      (fun p => !p.isEmpty && p ≠ noneTok) = toks)
    (h1 : ¬ s.data.isEmpty = true) (h2 : ¬ pyStrip s.data = noneTok)
    (h3 : ¬ toks.isEmpty = true) :
    safe_text_cleaning s =
      String.mk (pyStrip (collapseWs (collapseDots (pyJoin [' '] toks)))) := by
  simp only [safe_text_cleaning]
  rw [htoks, if_neg h1, if_neg h2, if_neg h3]

/-- The filtered, stripped whitespace tokens of the sanitizer are nonempty,
different from "None" and whitespace-free. -/
theorem parts_facts {s : String} {toks : List (List Char)}
    (htoks : ((pySplitWs s.data).map pyStrip).filter
      (fun p => !p.isEmpty && p ≠ noneTok) = toks) :
    ∀ t ∈ toks, t ≠ [] ∧ t ≠ noneTok ∧ ∀ c ∈ t, pyIsSpace c = false := by
  intro t ht
  rw [← htoks, List.mem_filter] at ht
  obtain ⟨hmem, hcond⟩ := ht
  rw [List.mem_map] at hmem
  obtain ⟨u, hu, rfl⟩ := hmem
  have hnw := (pySplitWs_tokens s.data u hu).2
  refine ⟨?_, ?_, fun c hc => hnw c (mem_pyStrip hc)⟩
  · intro hnil
    rw [hnil] at hcond
    simp at hcond
  · intro heq
    rw [heq] at hcond
    simp at hcond

/-- Claim C10: the text sanitizer is idempotent — cleaning an already
cleaned string returns it unchanged. -/
theorem claim_C10_idempotent (s : String) :
    safe_text_cleaning (safe_text_cleaning s) = safe_text_cleaning s := by
  by_cases h1 : s.data.isEmpty = true
  · have hs : safe_text_cleaning s = "" := by
      rw [safe_text_cleaning, if_pos h1]
    rw [hs]
    rfl
  · by_cases h2 : pyStrip s.data = noneTok
    · have hs : safe_text_cleaning s = "" := by
        rw [safe_text_cleaning, if_neg h1, if_pos h2]
      rw [hs]
      rfl
    · by_cases h3 : (((pySplitWs s.data).map pyStrip).filter
          (fun p => !p.isEmpty && p ≠ noneTok)).isEmpty = true
      · have hs : safe_text_cleaning s = "" := by
          simp only [safe_text_cleaning]
          rw [if_neg h1, if_neg h2, if_pos h3]
        rw [hs]
        rfl
      · have hfacts := parts_facts (s := s) rfl
        have hfw : ∀ t ∈ ((pySplitWs s.data).map pyStrip).filter
            (fun p => !p.isEmpty && p ≠ noneTok),
            t ≠ [] ∧ ∀ c ∈ t, pyIsSpace c = false :=
          fun t ht => ⟨(hfacts t ht).1, (hfacts t ht).2.2⟩
        set T : List (List Char) := ((pySplitWs s.data).map pyStrip).filter
          (fun p => !p.isEmpty && p ≠ noneTok) with hT
        set T2 : List (List Char) := T.map collapseDots with hT2
        have hfacts2 : ∀ t ∈ T2, t ≠ [] ∧ t ≠ noneTok ∧ ∀ c ∈ t, pyIsSpace c = false := by
          intro t ht
          rw [hT2, List.mem_map] at ht
          obtain ⟨u, hu, rfl⟩ := ht
          refine ⟨collapseDots_ne_nil (hfacts u hu).1, ?_, ?_⟩
          · intro heq
            exact (hfacts u hu).2.1 (collapseDots_eq_noneTok heq)
          · intro c hc
            rcases mem_collapseDots u c hc with h | h
            · rw [h]; decide
            · exact (hfacts u hu).2.2 c h
        have hfw2 : ∀ t ∈ T2, t ≠ [] ∧ ∀ c ∈ t, pyIsSpace c = false :=
          fun t ht => ⟨(hfacts2 t ht).1, (hfacts2 t ht).2.2⟩
        have hclean : safe_text_cleaning s = String.mk (pyJoin [' '] T2) := by
          rw [clean_of_parts hT.symm h1 h2 h3, collapseDots_pyJoin, ← hT2,
            collapseWs_pyJoin T2 hfw2, pyStrip_pyJoin T2 hfw2]
        rw [hclean]
        obtain ⟨t0, T', hTc⟩ : ∃ t0 T', T = t0 :: T' := by
          cases hTc : T with
          | nil =>
            rw [hTc] at h3
            exact absurd rfl h3
          | cons t0 T' => exact ⟨t0, T', rfl⟩
        have hT2c : T2 = collapseDots t0 :: T'.map collapseDots := by
          rw [hT2, hTc, List.map_cons]
        have ht0 : collapseDots t0 ≠ [] :=
          (hfacts2 _ (hT2c ▸ List.mem_cons_self _ _)).1
        have hJdata : (String.mk (pyJoin [' '] T2)).data = pyJoin [' '] T2 := rfl
        have h1b : ¬ (String.mk (pyJoin [' '] T2)).data.isEmpty = true := by
          rw [hJdata, List.isEmpty_iff, hT2c]
          exact pyJoin_ne_nil ht0 _
        have h2b : ¬ pyStrip (String.mk (pyJoin [' '] T2)).data = noneTok := by
          rw [hJdata, pyStrip_pyJoin T2 hfw2]
          exact pyJoin_ne_noneTok T2 (fun t ht => ⟨(hfacts2 t ht).1, (hfacts2 t ht).2.1⟩)
        have hsplit2 : ((pySplitWs (String.mk (pyJoin [' '] T2)).data).map pyStrip).filter
            (fun p => !p.isEmpty && p ≠ noneTok) = T2 := by
          rw [hJdata, pySplitWs_pyJoin T2 hfw2,
            map_self_of T2 (fun t ht => pyStrip_of_noWs ((hfw2 t ht).2)),
            List.filter_eq_self.mpr]
          intro t ht
          have hfa := hfacts2 t ht
          simp [List.isEmpty_iff, hfa.1, hfa.2.1]
        have h3b : ¬ T2.isEmpty = true := by
          rw [List.isEmpty_iff, hT2c]
          simp
        have hmapcd : T2.map collapseDots = T2 := by
          apply map_self_of
          intro t ht
          rw [hT2, List.mem_map] at ht
          obtain ⟨u, _, rfl⟩ := ht
          exact collapseDots_idem u
        rw [clean_of_parts hsplit2 h1b h2b h3b, collapseDots_pyJoin, hmapcd,
          collapseWs_pyJoin T2 hfw2, pyStrip_pyJoin T2 hfw2]

/-
  Lemmas towards claim C5 (forward fill of map_pages_to_sections).
-/

/-- Left-biased choice on options (`match o with some s => some s | none => b`). -/
def orD (a b : Option String) : Option String :=
  match a with
  | some s => some s
  | none => b

/-- Running current section while walking a page list: a page present in
the dictionary replaces the running value. -/
def curAfter (m : Nat → Option String) : Option String → List PageData → Option String
  | cur, [] => cur
  | cur, pg :: rest => curAfter m (orD (m pg.page_number) cur) rest

/-- Unfolding `curAfter` on the empty list. -/
theorem curAfter_nil (m : Nat → Option String) (cur : Option String) :
    curAfter m cur [] = cur := rfl

/-- Unfolding `curAfter` when the head page is in the dictionary. -/
theorem curAfter_cons_some {m : Nat → Option String} {pg : PageData} {s : String}
    (hm : m pg.page_number = some s) (cur : Option String) (X : List PageData) :
    curAfter m cur (pg :: X) = curAfter m (some s) X := by
  show curAfter m (orD (m pg.page_number) cur) X = _
  rw [hm]
  rfl

/-- Unfolding `curAfter` when the head page is not in the dictionary. -/
theorem curAfter_cons_none {m : Nat → Option String} {pg : PageData}
    (hm : m pg.page_number = none) (cur : Option String) (X : List PageData) :
    curAfter m cur (pg :: X) = curAfter m cur X := by
  show curAfter m (orD (m pg.page_number) cur) X = _
  rw [hm]
  rfl

/-- `curAfter` only reads the dictionary at the pages of its list. -/
theorem curAfter_congr : ∀ (X : List PageData) (m m2 : Nat → Option String)
    (cur : Option String),
    (∀ pg ∈ X, m pg.page_number = m2 pg.page_number) →
    curAfter m cur X = curAfter m2 cur X := by
  intro X
  induction X with
  | nil => intro m m2 cur _; rfl
  | cons pg X2 ih =>
    intro m m2 cur h
    show curAfter m (orD (m pg.page_number) cur) X2 = curAfter m2 (orD (m2 pg.page_number) cur) X2
    rw [h pg (List.mem_cons_self pg X2)]
    exact ih m m2 _ (fun q hq => h q (List.mem_cons_of_mem pg hq))

/-- `curAfter` returns the last dictionary hit of its list if any, and the
initial value otherwise. -/
theorem curAfter_eq (m : Nat → Option String) : ∀ (X : List PageData) (cur : Option String),
    curAfter m cur X =
      orD ((X.filterMap (fun pg => m pg.page_number)).getLast?) cur := by
  intro X
  induction X with
  | nil => intro cur; rfl
  | cons pg X2 ih =>
    intro cur
    cases hm : m pg.page_number with
    | some s =>
      rw [curAfter_cons_some hm, ih]
      simp only [List.filterMap_cons, hm, List.getLast?_cons]
      cases hl : (X2.filterMap (fun pg => m pg.page_number)).getLast? with
      | none => rfl
      | some v => rfl
    | none =>
      rw [curAfter_cons_none hm, ih]
      simp only [List.filterMap_cons, hm]

/-- Pass 1 leaves untouched the keys of absent pages. -/
theorem pass1Aux_notin : ∀ (pages : List PageData) (m : Nat → Option String) (k : Nat),
    (∀ q ∈ pages, q.page_number ≠ k) → pass1Aux m pages k = m k := by
  intro pages
  induction pages with
  | nil => intro m k _; rfl
  | cons pg rest ih =>
    intro m k h
    rw [pass1Aux, ih _ k (fun q hq => h q (List.mem_cons_of_mem pg hq))]
    cases hx : extract_section_from_text pg.original_text with
    | none => rfl
    | some s =>
      show updateMap m pg.page_number s k = m k
      rw [updateMap, if_neg (fun he => h pg (List.mem_cons_self pg rest) he.symm)]

/-- With distinct page numbers, pass 1 maps each page's number to the
directly detected section of that page, falling back to the initial
dictionary. -/
theorem pass1Aux_lookup : ∀ (pages : List PageData) (m : Nat → Option String)
    (pg : PageData), (pages.map PageData.page_number).Nodup → pg ∈ pages →
    pass1Aux m pages pg.page_number =
      orD (extract_section_from_text pg.original_text) (m pg.page_number) := by
  intro pages
  induction pages with
  | nil => intro m pg _ h; simp at h
  | cons q rest ih =>
    intro m pg hnd hmem
    rw [List.map_cons, List.nodup_cons] at hnd
    obtain ⟨hq, hnd2⟩ := hnd
    rw [pass1Aux]
    rcases List.mem_cons.mp hmem with h | h
    · subst h
      rw [pass1Aux_notin rest _ pg.page_number
        (fun r hr he => hq (he ▸ List.mem_map_of_mem PageData.page_number hr))]
      cases hx : extract_section_from_text pg.original_text with
      | none => rfl
      | some s =>
        show updateMap m pg.page_number s pg.page_number = orD (some s) (m pg.page_number)
        rw [updateMap, if_pos rfl]
        rfl
    · rw [ih _ pg hnd2 h]
      have hne : pg.page_number ≠ q.page_number :=
        fun he => hq (he ▸ List.mem_map_of_mem PageData.page_number h)
      cases hx : extract_section_from_text q.original_text with
      | none => rfl
      | some s =>
        show orD _ (updateMap m q.page_number s pg.page_number) = _
        rw [updateMap, if_neg hne]

/-- With distinct page numbers, the pass 1 dictionary is exactly direct
detection. -/
theorem sectionPass1_lookup {pages : List PageData}
    (hnd : (pages.map PageData.page_number).Nodup) {pg : PageData} (hmem : pg ∈ pages) :
    sectionPass1 pages pg.page_number = extract_section_from_text pg.original_text := by
  rw [sectionPass1, pass1Aux_lookup pages _ pg hnd hmem]
  cases extract_section_from_text pg.original_text <;> rfl

/-- Pass 1 has no entry at numbers of no page. -/
theorem sectionPass1_notin {pages : List PageData} {k : Nat}
    (h : ∀ q ∈ pages, q.page_number ≠ k) : sectionPass1 pages k = none := by
  rw [sectionPass1, pass1Aux_notin pages _ k h]

/-- Pass 2 step: page already in dictionary. -/
theorem pass2_cons_some {m : Nat → Option String} {pg : PageData} {s : String}
    (hm : m pg.page_number = some s) (rest : List PageData) (cur : Option String) :
    pass2 (pg :: rest) m cur = pass2 rest m (some s) := by
  rw [pass2.eq_def]
  dsimp only
  rw [hm]

/-- Pass 2 step: page absent from dictionary, running section known. -/
theorem pass2_cons_none_some {m : Nat → Option String} {pg : PageData}
    (hm : m pg.page_number = none) (rest : List PageData) (c : String) :
    pass2 (pg :: rest) m (some c) =
      pass2 rest (updateMap m pg.page_number c) (some c) := by
  rw [pass2.eq_def]
  dsimp only
  rw [hm]

/-- Pass 2 step: page absent from dictionary, no running section yet. -/
theorem pass2_cons_none_none {m : Nat → Option String} {pg : PageData}
    (hm : m pg.page_number = none) (rest : List PageData) :
    pass2 (pg :: rest) m none = pass2 rest m none := by
  rw [pass2.eq_def]
  dsimp only
  rw [hm]

/-- Characterisation of pass 2 lookups over a list with distinct page
numbers: a key of the list resolves to its own dictionary entry if present,
otherwise to the last dictionary hit among the pages strictly before it in
the list (or the initial running value); other keys keep their dictionary
value. -/
theorem pass2_lookup : ∀ (l : List PageData) (m : Nat → Option String)
    (cur : Option String) (k : Nat), (l.map PageData.page_number).Nodup →
    pass2 l m cur k =
      if k ∈ l.map PageData.page_number then
        orD (m k) (curAfter m cur (l.takeWhile (fun pg => pg.page_number ≠ k)))
      else m k := by
  intro l
  induction l with
  | nil =>
    intro m cur k _
    rw [if_neg (by simp)]
    rfl
  | cons pg rest ih =>
    intro m cur k hnd
    rw [List.map_cons, List.nodup_cons] at hnd
    obtain ⟨hfresh, hnd2⟩ := hnd
    cases hm : m pg.page_number with
    | some s =>
      rw [pass2_cons_some hm, ih m (some s) k hnd2]
      by_cases hk : k = pg.page_number
      · subst hk
        rw [if_neg (by simpa using hfresh), if_pos (by simp), hm]
        rfl
      · by_cases hk2 : k ∈ rest.map PageData.page_number
        · rw [if_pos hk2, if_pos (by simp [hk2])]
          cases hmk : m k with
          | some s2 => rfl
          | none =>
            rw [List.takeWhile_cons,
              if_pos (by simp; exact fun he => hk he.symm),
              curAfter_cons_some hm]
        · rw [if_neg hk2, if_neg (by simp [hk, hk2])]
    | none =>
      cases hcur : cur with
      | some c =>
        rw [pass2_cons_none_some hm, ih _ (some c) k hnd2]
        by_cases hk : k = pg.page_number
        · subst hk
          rw [if_neg (by simpa using hfresh), if_pos (by simp),
            List.takeWhile_cons, if_neg (by simp), curAfter_nil, hm]
          show updateMap m pg.page_number c pg.page_number = some c
          rw [updateMap, if_pos rfl]
        · have hupd : updateMap m pg.page_number c k = m k := by
            rw [updateMap, if_neg hk]
          by_cases hk2 : k ∈ rest.map PageData.page_number
          · rw [if_pos hk2, if_pos (by simp [hk2]), hupd]
            cases hmk : m k with
            | some s2 => rfl
            | none =>
              rw [List.takeWhile_cons,
                if_pos (by simp; exact fun he => hk he.symm),
                curAfter_cons_none hm,
                curAfter_congr _ (updateMap m pg.page_number c) m (some c)
                  (fun q hq => by
                    rw [updateMap, if_neg]
                    intro he
                    exact hfresh (he ▸ List.mem_map_of_mem PageData.page_number
                      ((List.takeWhile_sublist _).mem hq)))]
          · rw [if_neg hk2, if_neg (by simp [hk, hk2]), hupd]
      | none =>
        rw [pass2_cons_none_none hm, ih m none k hnd2]
        by_cases hk : k = pg.page_number
        · subst hk
          rw [if_neg (by simpa using hfresh), if_pos (by simp),
            List.takeWhile_cons, if_neg (by simp), curAfter_nil, hm]
          rfl
        · by_cases hk2 : k ∈ rest.map PageData.page_number
          · rw [if_pos hk2, if_pos (by simp [hk2])]
            cases hmk : m k with
            | some s2 => rfl
            | none =>
              rw [List.takeWhile_cons,
                if_pos (by simp; exact fun he => hk he.symm),
                curAfter_cons_none hm]
          · rw [if_neg hk2, if_neg (by simp [hk, hk2])]

/-- Inserting into the page sort is a permutation. -/
theorem insertByNum_perm (x : PageData) : ∀ l : List PageData,
    (insertByNum x l).Perm (x :: l) := by
  intro l
  induction l with
  | nil => exact List.Perm.refl _
  | cons y ys ih =>
    rw [insertByNum]
    by_cases h : x.page_number ≤ y.page_number
    · rw [if_pos h]
    · rw [if_neg h]
      exact (ih.cons y).trans (List.Perm.swap x y ys)

/-- The page sort is a permutation. -/
theorem sortByNum_perm : ∀ l : List PageData, (sortByNum l).Perm l := by
  intro l
  induction l with
  | nil => exact List.Perm.refl _
  | cons x xs ih =>
    exact (insertByNum_perm x (sortByNum xs)).trans (ih.cons x)

/-- Inserting into a sorted page list keeps it sorted. -/
theorem insertByNum_pairwise (x : PageData) : ∀ {l : List PageData},
    List.Pairwise (fun a b : PageData => a.page_number ≤ b.page_number) l →
    List.Pairwise (fun a b : PageData => a.page_number ≤ b.page_number)
      (insertByNum x l) := by
  intro l
  induction l with
  | nil => intro _; simp [insertByNum]
  | cons y ys ih =>
    intro hp
    rw [List.pairwise_cons] at hp
    obtain ⟨hy, hys⟩ := hp
    rw [insertByNum]
    by_cases h : x.page_number ≤ y.page_number
    · rw [if_pos h]
      refine List.Pairwise.cons ?_ (List.Pairwise.cons hy hys)
      intro z hz
      rcases List.mem_cons.mp hz with h2 | h2
      · rw [h2]; exact h
      · exact le_trans h (hy z h2)
    · rw [if_neg h]
      refine List.Pairwise.cons ?_ (ih hys)
      intro z hz
      rcases List.mem_cons.mp ((insertByNum_perm x ys).mem_iff.mp hz) with h2 | h2
      · rw [h2]; omega
      · exact hy z h2

/-- The page sort is sorted by page number. -/
theorem sortByNum_pairwise : ∀ l : List PageData,
    List.Pairwise (fun a b : PageData => a.page_number ≤ b.page_number) (sortByNum l) := by
  intro l
  induction l with
  | nil => exact List.Pairwise.nil
  | cons x xs ih => exact insertByNum_pairwise x ih

/-- With distinct page numbers the sort is strictly increasing. -/
theorem sortByNum_strict {pages : List PageData}
    (hnd : (pages.map PageData.page_number).Nodup) :
    List.Pairwise (fun a b : PageData => a.page_number < b.page_number)
      (sortByNum pages) := by
  have hperm : ((sortByNum pages).map PageData.page_number).Perm
      (pages.map PageData.page_number) := (sortByNum_perm pages).map _
  have hnd2 : ((sortByNum pages).map PageData.page_number).Nodup :=
    hperm.nodup_iff.mpr hnd
  have hne : List.Pairwise
      (fun a b : PageData => a.page_number ≠ b.page_number) (sortByNum pages) :=
    List.pairwise_map.mp hnd2
  exact ((sortByNum_pairwise pages).and hne).imp
    (fun h => lt_of_le_of_ne h.1 h.2)

/-- In a strictly sorted page list the prefix before page `p` is exactly
the pages with smaller numbers. -/
theorem takeWhile_ne_eq_filter_lt : ∀ (l : List PageData),
    List.Pairwise (fun a b : PageData => a.page_number < b.page_number) l →
    ∀ {p : PageData}, p ∈ l →
    l.takeWhile (fun r => r.page_number ≠ p.page_number) =
      l.filter (fun r => r.page_number < p.page_number) := by
  intro l
  induction l with
  | nil => intro _ p h; simp at h
  | cons q l2 ih =>
    intro hpw p hp
    rw [List.pairwise_cons] at hpw
    obtain ⟨hq, hpw2⟩ := hpw
    rcases List.mem_cons.mp hp with h | h
    · subst h
      rw [List.takeWhile_cons, if_neg (by simp), List.filter_cons, if_neg (by simp)]
      have hnil : l2.filter (fun r => r.page_number < p.page_number) = [] := by
        rw [List.filter_eq_nil]
        intro r hr
        have := hq r hr
        simp
        omega
      rw [hnil]
    · have hqp : q.page_number < p.page_number := hq p h
      rw [List.takeWhile_cons, if_pos (by simp; omega), List.filter_cons,
        if_pos (by simp [hqp]), ih hpw2 h]

/-- The last direct hit of a filterMap over a strictly sorted list is
realised by a page dominating every page with a hit. -/
theorem fm_last_some {f : PageData → Option String} : ∀ (L : List PageData),
    List.Pairwise (fun a b : PageData => a.page_number < b.page_number) L →
    ∀ v, (L.filterMap f).getLast? = some v →
    ∃ d ∈ L, f d = some v ∧
      ∀ r ∈ L, f r ≠ none → r.page_number ≤ d.page_number := by
  intro L
  induction L with
  | nil => intro _ v h; simp at h
  | cons pg L2 ih =>
    intro hpw v h
    rw [List.pairwise_cons] at hpw
    obtain ⟨hlt, hpw2⟩ := hpw
    cases hL2 : (L2.filterMap f).getLast? with
    | some v2 =>
      obtain ⟨d, hd, hfd, hmax⟩ := ih hpw2 v2 hL2
      have htot : ((pg :: L2).filterMap f).getLast? = some v2 := by
        cases hf : f pg with
        | some b =>
          rw [List.filterMap_cons_some hf, List.getLast?_cons, hL2]
          rfl
        | none =>
          rw [List.filterMap_cons_none hf]
          exact hL2
      rw [htot] at h
      obtain rfl : v2 = v := Option.some_inj.mp h
      refine ⟨d, List.mem_cons_of_mem _ hd, hfd, ?_⟩
      intro r hr hfr
      rcases List.mem_cons.mp hr with h2 | h2
      · rw [h2]
        exact le_of_lt (hlt d hd)
      · exact hmax r h2 hfr
    | none =>
      have hnil : L2.filterMap f = [] := List.getLast?_eq_none.mp hL2
      have hall : ∀ r ∈ L2, f r = none := List.filterMap_eq_nil.mp hnil
      cases hf : f pg with
      | none =>
        rw [List.filterMap_cons_none hf, hnil] at h
        simp at h
      | some b =>
        rw [List.filterMap_cons_some hf, hnil] at h
        obtain rfl : b = v := by simpa using h
        refine ⟨pg, List.mem_cons_self _ _, hf, ?_⟩
        intro r hr hfr
        rcases List.mem_cons.mp hr with h2 | h2
        · rw [h2]
        · exact absurd (hall r h2) hfr

/-- Conversely, a page whose hit dominates all other hits realises the last
hit of the filterMap. -/
theorem fm_last_max {f : PageData → Option String} : ∀ (L : List PageData),
    List.Pairwise (fun a b : PageData => a.page_number < b.page_number) L →
    ∀ d v, d ∈ L → f d = some v →
    (∀ r ∈ L, f r ≠ none → r.page_number ≤ d.page_number) →
    (L.filterMap f).getLast? = some v := by
  intro L
  induction L with
  | nil => intro _ d v h; simp at h
  | cons pg L2 ih =>
    intro hpw d v hd hfd hmax
    rw [List.pairwise_cons] at hpw
    obtain ⟨hlt, hpw2⟩ := hpw
    rcases List.mem_cons.mp hd with h | h
    · subst h
      have hall : ∀ r ∈ L2, f r = none := by
        intro r hr
        by_contra hne
        have h1 := hmax r (List.mem_cons_of_mem _ hr) hne
        have h2 := hlt r hr
        omega
      rw [List.filterMap_cons_some hfd, List.filterMap_eq_nil.mpr hall]
      rfl
    · have hrec := ih hpw2 d v h hfd
        (fun r hr hfr => hmax r (List.mem_cons_of_mem _ hr) hfr)
      cases hf : f pg with
      | none =>
        rw [List.filterMap_cons_none hf]
        exact hrec
      | some b =>
        rw [List.filterMap_cons_some hf, List.getLast?_cons, hrec]
        rfl

/-- Master formula: with distinct page numbers, the final page-to-section
map resolves a page to its own directly detected section if any, and
otherwise to the direct section of the latest earlier page having one. -/
theorem map_final_lookup {pages : List PageData}
    (hnd : (pages.map PageData.page_number).Nodup) {p : PageData} (hp : p ∈ pages) :
    map_pages_to_sections pages p.page_number =
      orD (extract_section_from_text p.original_text)
        (((sortByNum pages).takeWhile (fun r => r.page_number ≠ p.page_number)).filterMap
            (fun r => extract_section_from_text r.original_text)).getLast? := by
  have hperm := sortByNum_perm pages
  have hndS : ((sortByNum pages).map PageData.page_number).Nodup :=
    (hperm.map PageData.page_number).nodup_iff.mpr hnd
  have hpS : p ∈ sortByNum pages := hperm.mem_iff.mpr hp
  rw [map_pages_to_sections, pass2_lookup (sortByNum pages) _ none p.page_number hndS,
    if_pos (List.mem_map_of_mem PageData.page_number hpS)]
  rw [sectionPass1_lookup hnd hp]
  congr 1
  rw [curAfter_eq]
  have hcongr : ((sortByNum pages).takeWhile
        (fun r => r.page_number ≠ p.page_number)).filterMap
      (fun r => sectionPass1 pages r.page_number) =
      ((sortByNum pages).takeWhile
        (fun r => r.page_number ≠ p.page_number)).filterMap
      (fun r => extract_section_from_text r.original_text) := by
    apply List.filterMap_congr
    intro r hr
    exact sectionPass1_lookup hnd
      (hperm.mem_iff.mp ((List.takeWhile_sublist _).mem hr))
  rw [hcongr]
  cases (((sortByNum pages).takeWhile (fun r => r.page_number ≠ p.page_number)).filterMap
      (fun r => extract_section_from_text r.original_text)).getLast? <;> rfl

/-- Claim C5: in the page-to-section map, a page with no directly detected
section inherits the section of any earlier assigned page when no page
strictly between them carries a different assignment (forward fill), and
pages before the first detected section remain unmapped.  Page numbers are
assumed distinct, as the data model requires. -/
theorem claim_C5_forward_fill (pages : List PageData)
    (hnd : (pages.map PageData.page_number).Nodup) :
    (∀ p ∈ pages, ∀ q ∈ pages, ∀ s : String,
        extract_section_from_text p.original_text = none →
        q.page_number < p.page_number →
        map_pages_to_sections pages q.page_number = some s →
        (∀ r ∈ pages, q.page_number < r.page_number → r.page_number < p.page_number →
            map_pages_to_sections pages r.page_number = none ∨
            map_pages_to_sections pages r.page_number = some s) →
        map_pages_to_sections pages p.page_number = some s) ∧
    (∀ p ∈ pages,
        (∀ q ∈ pages, q.page_number ≤ p.page_number →
            extract_section_from_text q.original_text = none) →
        map_pages_to_sections pages p.page_number = none) := by
  have hperm := sortByNum_perm pages
  have hstrict := sortByNum_strict hnd
  have hinj := List.inj_on_of_nodup_map hnd
  have hmem_pre : ∀ p ∈ pages, ∀ r : PageData,
      r ∈ (sortByNum pages).takeWhile (fun x => x.page_number ≠ p.page_number) ↔
        r ∈ pages ∧ r.page_number < p.page_number := by
    intro p hp r
    rw [takeWhile_ne_eq_filter_lt _ hstrict (hperm.mem_iff.mpr hp), List.mem_filter]
    simp [hperm.mem_iff]
  have hpw_pre : ∀ p : PageData,
      List.Pairwise (fun a b : PageData => a.page_number < b.page_number)
        ((sortByNum pages).takeWhile (fun x => x.page_number ≠ p.page_number)) :=
    fun p => List.Pairwise.sublist (List.takeWhile_sublist _) hstrict
  constructor
  · intro p hp q hq s hdirect hlt hqs hbetween
    have hmaster_p := map_final_lookup hnd hp
    rw [hdirect] at hmaster_p
    simp only [orD] at hmaster_p
    rw [hmaster_p]
    have hmaster_q := map_final_lookup hnd hq
    cases hfq : extract_section_from_text q.original_text with
    | some s0 =>
      rw [hfq] at hmaster_q
      simp only [orD] at hmaster_q
      rw [hmaster_q] at hqs
      have hs0 : s0 = s := Option.some_inj.mp hqs
      cases hgl : (((sortByNum pages).takeWhile
          (fun x => x.page_number ≠ p.page_number)).filterMap
          (fun r => extract_section_from_text r.original_text)).getLast? with
      | none =>
        exfalso
        have hall := List.filterMap_eq_nil.mp (List.getLast?_eq_none.mp hgl)
        have hqpre := (hmem_pre p hp q).mpr ⟨hq, hlt⟩
        have := hall q hqpre
        rw [hfq] at this
        exact absurd this (by simp)
      | some t =>
        obtain ⟨d, hd, hfd, hdom⟩ := fm_last_some _ (hpw_pre p) t hgl
        obtain ⟨hdpages, hdlt⟩ := (hmem_pre p hp d).mp hd
        rcases lt_trichotomy d.page_number q.page_number with hc | hc | hc
        · exfalso
          have hqd := hdom q ((hmem_pre p hp q).mpr ⟨hq, hlt⟩) (by rw [hfq]; simp)
          omega
        · have hdq : d = q := hinj hdpages hq hc
          rw [hdq, hfq] at hfd
          rw [← Option.some_inj.mp hfd, hs0]
        · have hbet := hbetween d hdpages hc hdlt
          have hmaster_d := map_final_lookup hnd hdpages
          rw [hfd] at hmaster_d
          simp only [orD] at hmaster_d
          rcases hbet with hb | hb
          · rw [hmaster_d] at hb
            exact absurd hb (by simp)
          · rw [hmaster_d] at hb
            exact hb
    | none =>
      rw [hfq] at hmaster_q
      simp only [orD] at hmaster_q
      rw [hqs] at hmaster_q
      have hql := hmaster_q.symm
      obtain ⟨d0, hd0, hfd0, hdom0⟩ := fm_last_some _ (hpw_pre q) s hql
      obtain ⟨hd0pages, hd0lt⟩ := (hmem_pre q hq d0).mp hd0
      have hd0pre_p := (hmem_pre p hp d0).mpr ⟨hd0pages, by omega⟩
      cases hgl : (((sortByNum pages).takeWhile
          (fun x => x.page_number ≠ p.page_number)).filterMap
          (fun r => extract_section_from_text r.original_text)).getLast? with
      | none =>
        exfalso
        have hall := List.filterMap_eq_nil.mp (List.getLast?_eq_none.mp hgl)
        have := hall d0 hd0pre_p
        rw [hfd0] at this
        exact absurd this (by simp)
      | some t =>
        obtain ⟨d, hd, hfd, hdom⟩ := fm_last_some _ (hpw_pre p) t hgl
        obtain ⟨hdpages, hdlt⟩ := (hmem_pre p hp d).mp hd
        rcases lt_trichotomy d.page_number q.page_number with hc | hc | hc
        · have h1 := (hmem_pre q hq d).mpr ⟨hdpages, hc⟩
          have h2 := hdom0 d h1 (by rw [hfd]; simp)
          have h3 := hdom d0 hd0pre_p (by rw [hfd0]; simp)
          have hdd0 : d = d0 := hinj hdpages hd0pages (by omega)
          rw [hdd0, hfd0] at hfd
          exact hfd.symm
        · exfalso
          have hdq : d = q := hinj hdpages hq hc
          rw [hdq, hfq] at hfd
          exact absurd hfd (by simp)
        · have hbet := hbetween d hdpages hc hdlt
          have hmaster_d := map_final_lookup hnd hdpages
          rw [hfd] at hmaster_d
          simp only [orD] at hmaster_d
          rcases hbet with hb | hb
          · rw [hmaster_d] at hb
            exact absurd hb (by simp)
          · rw [hmaster_d] at hb
            exact hb
  · intro p hp hB
    have hmaster_p := map_final_lookup hnd hp
    rw [hB p hp (le_refl _)] at hmaster_p
    simp only [orD] at hmaster_p
    rw [hmaster_p]
    have hall : ∀ r ∈ (sortByNum pages).takeWhile
        (fun x => x.page_number ≠ p.page_number),
        extract_section_from_text r.original_text = none := by
      intro r hr
      obtain ⟨hrpages, hrlt⟩ := (hmem_pre p hp r).mp hr
      exact hB r hrpages (le_of_lt hrlt)
    rw [List.filterMap_eq_nil.mpr hall]
    rfl

/-- Pages used for the claim C5 witness: page 2 has a direct section,
pages 1 and 3 have none. -/
def c5pages : List PageData :=
  [{ page_number := 1, original_text := "first page text" },
   { page_number := 2, original_text := "3.1.1 系统概述" },
   { page_number := 3, original_text := "continuation text" }]

/-- Witness for claim C5: page 3 inherits the section of page 2 by forward
fill. -/
theorem claim_C5_forward_fill_witness :
    map_pages_to_sections c5pages 3 = some "3.1.1" :=
  (claim_C5_forward_fill c5pages (by decide)).1
    { page_number := 3, original_text := "continuation text" } (by decide)
    { page_number := 2, original_text := "3.1.1 系统概述" } (by decide)
    "3.1.1" (by decide) (by decide) (by decide) (by decide)

end PdfTr
